import Mathlib

/-!
Verification of the `count_distinct` distinct-element accumulator
(src/count_distinct.c).

Records are fixed-width byte strings, modelled as `List Nat` (one entry per
byte).  All ordering in the C code is `memcmp` over `item_size` bytes, which
for equal-length byte strings is lexicographic comparison; we model it by a
three-way comparison `memcmp` on byte lists (with the convention that a
proper prefix is smaller, which is never exercised across records of equal
width).

The accumulator `element_set_t` is modelled by the structure `ESet`.  Its
`data` field holds the live records (the first `nall` record slots of the C
byte buffer, split into the sorted zone `data.take nsorted` and the pending
zone `data.drop nsorted`); `nbytes` tracks the allocated capacity in bytes
exactly as in the C struct.  Machine integers are modelled as `Nat`: all the
counters involved are `uint32` values that stay far below `2^32` in every
scenario considered here (capacities grow from 32 by bounded factors), and
no arithmetic in the translated routines wraps.

Floating-point detail: the C code computes the free fraction in `double`
arithmetic and compares against `0.2`, and grows by `/= 0.8`.  We model
these comparisons and the growth amount with exact rational arithmetic over
`Nat` (`5 * free < nbytes`, `nbytes * 5 / 4`).  No claim proved below
depends on the rounding of these `double` operations: the growth policy only
affects the capacity field `nbytes`, never the record contents or counts.
-/
namespace CountDistinct
/-- A fixed-width record: its `item_size` bytes. -/
abbrev Record := List Nat
/-- Model of `memcmp` over two records (`compare_items` in the C source):
three-way lexicographic byte comparison.  For the equal-width records the
program compares, the unequal-length cases are never reached. -/
def memcmp : Record → Record → Ordering
  | [], [] => .eq
  | [], _ :: _ => .lt
  | _ :: _, [] => .gt
  | a :: as, b :: bs =>
    if a < b then .lt
    else if b < a then .gt
    else memcmp as bs
/-- Strict byte-wise order on records (`memcmp < 0`). -/
def recLt (a b : Record) : Prop := memcmp a b = .lt
/-- Non-strict byte-wise order on records (`memcmp <= 0`). -/
def recLe (a b : Record) : Prop := memcmp a b ≠ .gt
instance : DecidableRel recLt := fun a b => by unfold recLt; infer_instance
instance : DecidableRel recLe := fun a b => by unfold recLe; infer_instance
/-! ### Adjacent deduplication

`dedupeFrom p l` walks `l` keeping an element exactly when it differs
(byte-wise) from the last kept element, `p` being the last element kept so
far (`none` before anything is kept).  `dedupeFrom none` is the in-place
duplicate-removal pass of `compact_set` (the `for` loop updating `last` /
`cnt`); `dedupeFrom` with a running `some` argument is also the shape of the
`prev`-based duplicate elimination inside `count_distinct_combine`. -/

def dedupeFrom : Option Record → List Record → List Record
  | _, [] => []
  | none, x :: xs => x :: dedupeFrom (some x) xs
  | some p, x :: xs =>
    if memcmp p x = .eq then dedupeFrom (some p) xs
    else x :: dedupeFrom (some x) xs
/-- The duplicate-removal pass over a freshly sorted pending zone. -/
def dedupeAdj (l : List Record) : List Record := dedupeFrom none l
/-! ### The duplicate-eliminating merges

`mergeUniq` is the two-pointer merge in `compact_set`: it compares the heads
of the (strictly sorted) sorted zone and deduplicated pending zone, on
equality emits one copy and advances both, otherwise emits and advances the
smaller side, and when one side is exhausted bulk-copies the rest of the
other (the `while (true)` loop together with its final `memcpy`).

`mergeLe` is the element-selection order of the merge loop in
`count_distinct_combine`: on `memcmp <= 0` it takes from the first operand
(advancing only that pointer), otherwise from the second; duplicate
elimination there happens separately against `prev` (see `dedupeFrom`). -/

def mergeUniq (as bs : List Record) : List Record :=
  match as, bs with
  | [], bs => bs
  | a :: as', [] => a :: as'
  | a :: as', b :: bs' =>
    match memcmp a b with
    | .eq => a :: mergeUniq as' bs'
    | .lt => a :: mergeUniq as' (b :: bs')
    | .gt => b :: mergeUniq (a :: as') bs'
termination_by as.length + bs.length
decreasing_by all_goals simp +arith
def mergeLe (as bs : List Record) : List Record :=
  match as, bs with
  | [], bs => bs
  | a :: as', [] => a :: as'
  | a :: as', b :: bs' =>
    if memcmp a b ≠ .gt then a :: mergeLe as' (b :: bs')
    else b :: mergeLe (a :: as') bs'
termination_by as.length + bs.length
decreasing_by all_goals simp +arith
/-! ### The accumulator -/

/-- Model of `element_set_t`.  `data` holds the live records: the first
`nall` record slots of the C byte buffer (`nsorted` sorted-distinct ones
followed by the pending ones).  `nbytes` is the allocated capacity in
bytes; the buffer bytes between `nall * item_size` and `nbytes` are
uninitialized slack and are not represented (where the combine merge loop
can reach them, the model reads a zero-filled record, see `slotAt`).
`typalign` and `aggctx` model the `char typalign` field and the
`MemoryContext aggctx` pointer as opaque numbers; both sit between the four
`uint32` counters and the `data` pointer in the struct and therefore are
part of every serialized header. -/
structure ESet where
  item_size : Nat
  nsorted : Nat
  nall : Nat
  nbytes : Nat
  typalign : Nat
  aggctx : Nat
  data : List Record
deriving Repr, DecidableEq
/-- `ARRAY_INIT_SIZE`: initial size of the array, in bytes. -/
def ARRAY_INIT_SIZE : Nat := 32
/-- `ALLOCSET_SEPARATE_THRESHOLD` (PostgreSQL memory-allocator constant). -/
def ALLOCSET_SEPARATE_THRESHOLD : Nat := 8192
/-- Capacity growth performed by `compact_set` when less than 20% of the
array is free: below the separate-allocation threshold the capacity is
doubled, above it it is scaled by `1/0.8` (the `double` division is
modelled as the exact `* 5 / 4` with truncation). -/
def grownCap (nbytes : Nat) : Nat :=
  if 5 * nbytes < 4 * ALLOCSET_SEPARATE_THRESHOLD then nbytes * 2
  else nbytes * 5 / 4
/-- The sort/dedupe/merge section of `compact_set`: if the pending zone is
non-empty, sort it (`qsort_arg` with `compare_items`, modelled as an
insertion sort by `recLe` — byte-wise equal records are identical, so every
comparison sort produces this same list), remove adjacent duplicates, then
either adopt the result as the sorted zone (when the sorted zone was empty)
or two-pointer merge the two zones eliminating duplicates. -/
def compactPhase1 (eset : ESet) : ESet :=
  if eset.nsorted < eset.nall then
    let pendDedup :=
      dedupeAdj (List.insertionSort recLe (eset.data.drop eset.nsorted))
    if eset.nsorted = 0 then
      { eset with
        data := pendDedup
        nall := pendDedup.length
        nsorted := pendDedup.length }
    else
      let merged := mergeUniq (eset.data.take eset.nsorted) pendDedup
      { eset with
        data := merged
        nall := merged.length
        nsorted := merged.length }
  else eset
/-- Model of `compact_set(eset, need_space)`: run the sort/dedupe/merge
phase (`compactPhase1`), then, if `need_space` is set and less than
`ARRAY_FREE_FRACT = 0.2` of the capacity is free, grow the capacity
(`grownCap`) — reallocation preserves the record contents.  The C
`Assert`s at the top of the function (`nall > 0`, `nsorted <= nall`,
`nall * item_size <= nbytes`) are internal-consistency assertions that the
well-formedness lemmas below establish for every state the program applies
it to. -/
def compact_set (eset : ESet) (need_space : Bool) : ESet :=
  let e1 := compactPhase1 eset
  if need_space && decide (5 * (e1.nbytes - e1.nall * e1.item_size) < e1.nbytes) then
    { e1 with nbytes := grownCap e1.nbytes }
  else e1
/-- Model of `init_set(item_size, typalign, ctx)`. -/
def init_set (item_size typalign aggctx : Nat) : ESet :=
  { item_size := item_size
    nsorted := 0
    nall := 0
    nbytes := ARRAY_INIT_SIZE
    typalign := typalign
    aggctx := aggctx
    data := [] }
/-- Model of `add_element(eset, value)`: compact (requesting free space)
when the buffer cannot take one more record, then copy the record into slot
`nall` and bump `nall`. -/
def add_element (eset : ESet) (value : Record) : ESet :=
  let e1 :=
    if eset.nbytes < eset.item_size * (eset.nall + 1) then compact_set eset true
    else eset
  { e1 with data := e1.data ++ [value], nall := e1.nall + 1 }
/-- The transition function `count_distinct_append` iterated over a stream
of non-null inputs: the first input creates the accumulator via `init_set`
(with the observed type's width), every input is added via `add_element`.
`typalign` and the aggregation context are irrelevant to the counting
behaviour and fixed to `0` here. -/
def buildESet (item_size : Nat) (vs : List Record) : ESet :=
  vs.foldl add_element (init_set item_size 0 0)
/-- Model of the final function `count_distinct`: `NULL` state yields
`NULL`, otherwise force compaction and return `nall`. -/
def count_distinct (state : Option ESet) : Option Nat :=
  state.map fun eset => (compact_set eset false).nall
/-- The record sequence a fully compacted accumulator presents to the final
functions (`build_array` reads `data[0 .. nsorted)` after compaction; after
`compact_set` the whole of `data` is that sorted zone). -/
def finalizeSeq (eset : ESet) : List Record := (compact_set eset false).data
/-! ### Serialization -/

/-- `offsetof(element_set_t, data)`: the serialized header is a verbatim
copy of the struct up to (excluding) the `data` pointer, i.e. the four
`uint32` counters (16 bytes) *plus* the `typalign` char, alignment padding
and the `MemoryContext aggctx` pointer.  On an LP64 platform this is
16 + 1 + 7 + 8 = 32 bytes; only the facts that it covers all six fields and
exceeds 16 matter below. -/
def headerSize : Nat := 32
/-- The byte stream handed to `count_distinct_deserial` (a `bytea`).
`len` is the payload length declared by the varlena header
(`VARSIZE_ANY_EXHDR`); the six `hdr·` fields are the struct-header bytes
(`memcpy` of `offsetof(element_set_t, data)` bytes in both directions);
`payload` is the record data that follows.  For the output of
`count_distinct_serial`, `len = headerSize + nall * item_size` and
`payload` is the flattened sorted record data, but an arbitrary (corrupt)
input may have any field values. -/
structure SerialBytes where
  len : Nat
  hdr_item_size : Nat
  hdr_nsorted : Nat
  hdr_nall : Nat
  hdr_nbytes : Nat
  hdr_typalign : Nat
  hdr_aggctx : Nat
  payload : List Nat
deriving Repr, DecidableEq
/-- Model of `count_distinct_serial`: force compaction, then emit the
struct header (all fields up to `data`, see `headerSize`) followed by
`nall * item_size` bytes copied from the record buffer. -/
def count_distinct_serial (eset : ESet) : SerialBytes :=
  let c := compact_set eset false
  { len := headerSize + c.nall * c.item_size
    hdr_item_size := c.item_size
    hdr_nsorted := c.nsorted
    hdr_nall := c.nall
    hdr_nbytes := c.nbytes
    hdr_typalign := c.typalign
    hdr_aggctx := c.aggctx
    payload := (c.data.take c.nall).flatten }
/-- Split `nall` records of `item_size` bytes off a byte stream
(the record-area `memcpy` of `count_distinct_deserial`, viewed per record). -/
def readRecords (item_size : Nat) : Nat → List Nat → List Record
  | 0, _ => []
  | n + 1, bytes => bytes.take item_size :: readRecords item_size n (bytes.drop item_size)
/-- Model of `count_distinct_deserial`.  The function validates its input
with `Assert`s — fatal, non-recoverable aborts in an assert-enabled build —
modelled as `none`:
`Assert(len > 0)`; `Assert((len - offsetof(element_set_t, data)) > 0)`
(a `Size` subtraction, which being unsigned fails exactly when
`len == headerSize`); `Assert(nall > 0 && nall == nsorted)`; and
`Assert(len == offsetof(element_set_t, data) + nall * item_size)`.
On success the header is copied verbatim (including the serializing
process's `typalign` and `aggctx` bytes), storage is allocated for exactly
`nall * item_size` bytes (`nbytes` is recomputed, not taken from the
header), and the record bytes are copied in. -/
def count_distinct_deserial (s : SerialBytes) : Option ESet :=
  if s.len = 0 then none
  else if s.len = headerSize then none
  else if ¬ (0 < s.hdr_nall ∧ s.hdr_nall = s.hdr_nsorted) then none
  else if s.len ≠ headerSize + s.hdr_nall * s.hdr_item_size then none
  else
    some
      { item_size := s.hdr_item_size
        nsorted := s.hdr_nsorted
        nall := s.hdr_nall
        nbytes := s.hdr_nall * s.hdr_item_size
        typalign := s.hdr_typalign
        aggctx := s.hdr_aggctx
        data := readRecords s.hdr_item_size s.hdr_nall s.payload }
/-! ### Combine -/

/-- Record slot `k` of an accumulator's buffer, as read by the combine
merge loop (`data + k * item_size`).  Slots beyond the live records hold
uninitialized slack bytes; the model reads them as zero bytes. -/
def slotAt (eset : ESet) (k : Nat) : Record :=
  (eset.data.drop k).headD (List.replicate eset.item_size 0)
/-- One operand pointer of the combine merge loop is still in bounds:
`ptr < data + nbytes` with `ptr = data + k * item_size`. -/
def slotInBounds (eset : ESet) (k : Nat) : Prop :=
  k * eset.item_size < eset.nbytes
instance (eset : ESet) (k : Nat) : Decidable (slotInBounds eset k) := by
  unfold slotInBounds; infer_instance
/-- Duplicate elimination against the last emitted record in the combine
merge loop: the element is appended unless the output is still empty
(`tmp == data`) — then it is appended unconditionally — or it byte-wise
equals `prev`, the record written last. -/
def emitDistinct (out : List Record) (elem : Record) : List Record :=
  match out.getLast? with
  | none => out ++ [elem]
  | some prev => if memcmp prev elem = .eq then out else out ++ [elem]

/-- The merge loop of `count_distinct_combine`: exactly
`eset1.nall + eset2.nall` iterations; each picks the element under the
smaller in-bounds pointer (ties and `memcmp <= 0` take operand 1), then
emits it via `emitDistinct`.  If both pointers are exhausted before the
iterations run out the C code raises `elog(ERROR, "unexpected")`,
modelled as `none`. -/
def combineGo (e1 e2 : ESet) : Nat → Nat → Nat → List Record → Option (List Record)
  | 0, _, _, out => some out
  | fuel + 1, k1, k2, out =>
    let step : Option (Record × Nat × Nat) :=
      if slotInBounds e1 k1 ∧ slotInBounds e2 k2 then
        if memcmp (slotAt e1 k1) (slotAt e2 k2) ≠ .gt then
          some (slotAt e1 k1, k1 + 1, k2)
        else
          some (slotAt e2 k2, k1, k2 + 1)
      else if slotInBounds e1 k1 then some (slotAt e1 k1, k1 + 1, k2)
      else if slotInBounds e2 k2 then some (slotAt e2 k2, k1, k2 + 1)
      else none
    match step with
    | none => none
    | some (elem, k1', k2') => combineGo e1 e2 fuel k1' k2' (emitDistinct out elem)
/-- Model of `count_distinct_combine`.  The two arguments are the two
(possibly `NULL`) partial states; the outer `Option` of the result is the
fatal-error path (`none` = the `Assert` on the item sizes, active in an
assert-enabled build, or the `elog(ERROR, "unexpected")` in the loop), the
inner `Option` is the returned state (`none` = `NULL`).
If the second state is absent the first is returned unchanged; if only the
first is absent a copy of the second is returned; otherwise both states are
fully compacted and merged, and the first state's struct is reused for the
result with `nbytes = tmp - data` (the emitted bytes), `nall = nbytes /
item_size` and `nsorted = nall`. -/
def count_distinct_combine (a b : Option ESet) : Option (Option ESet) :=
  match a, b with
  | eset1, none => some eset1
  | none, some eset2 => some (some eset2)
  | some eset1, some eset2 =>
    if 0 < eset1.item_size ∧ eset1.item_size = eset2.item_size then
      let e1 := compact_set eset1 false
      let e2 := compact_set eset2 false
      match combineGo e1 e2 (e1.nall + e2.nall) 0 0 [] with
      | none => none
      | some out =>
        some (some
          { e1 with
            data := out
            nbytes := out.length * e1.item_size
            nall := out.length * e1.item_size / e1.item_size
            nsorted := out.length * e1.item_size / e1.item_size })
    else none

/-! ### State well-formedness

`WF` collects the structural invariants that hold for every accumulator the
program manipulates (they are the spec's data-model invariants and the
`Assert`ed preconditions of `compact_set`): the stored width, the zone
counters, the record widths, and strict sortedness of the sorted zone.
`Compacted` additionally captures the stronger shape of fully compacted
accumulators with *exactly* sized storage, as produced by
`count_distinct_deserial` and by a merging `count_distinct_combine`: the
whole buffer is one strictly sorted zone and `nbytes = nall * item_size`. -/

def WF (is : Nat) (e : ESet) : Prop :=
  e.item_size = is ∧
  e.data.length = e.nall ∧
  e.nsorted ≤ e.nall ∧
  (∀ r ∈ e.data, r.length = is) ∧
  List.Pairwise recLt (e.data.take e.nsorted)

instance (is : Nat) (e : ESet) : Decidable (WF is e) := by
  unfold WF; infer_instance

def Compacted (is : Nat) (e : ESet) : Prop :=
  e.item_size = is ∧
  e.nsorted = e.nall ∧
  e.data.length = e.nall ∧
  e.nbytes = e.nall * is ∧
  (∀ r ∈ e.data, r.length = is) ∧
  List.Pairwise recLt e.data

instance (is : Nat) (e : ESet) : Decidable (Compacted is e) := by
  unfold Compacted; infer_instance

/-! ## Theory -/

theorem memcmp_eq_iff : ∀ a b : Record, memcmp a b = .eq ↔ a = b
  | [], [] => by simp [memcmp]
  | [], _ :: _ => by simp [memcmp]
  | _ :: _, [] => by simp [memcmp]
  | a :: as, b :: bs => by
    simp only [memcmp]
    rcases Nat.lt_trichotomy a b with h | h | h
    · simp [h, Nat.not_lt_of_lt h]
      intro hab; omega
    · simp [h, Nat.lt_irrefl, memcmp_eq_iff as bs]
    · simp [h, Nat.not_lt_of_lt h]
      intro hab; omega

theorem memcmp_refl (a : Record) : memcmp a a = .eq :=
  (memcmp_eq_iff a a).mpr rfl

theorem memcmp_swap : ∀ a b : Record, memcmp b a = (memcmp a b).swap
  | [], [] => rfl
  | [], _ :: _ => rfl
  | _ :: _, [] => rfl
  | a :: as, b :: bs => by
    simp only [memcmp]
    rcases Nat.lt_trichotomy a b with h | h | h
    · simp [h, Nat.not_lt_of_lt h, Ordering.swap]
    · simp [h, Nat.lt_irrefl, memcmp_swap as bs]
    · simp [h, Nat.not_lt_of_lt h, Ordering.swap]

theorem memcmp_lt_trans :
    ∀ a b c : Record, memcmp a b = .lt → memcmp b c = .lt → memcmp a c = .lt
  | [], [], _ :: _, _, _ => rfl
  | [], _ :: _, _ :: _, _, _ => rfl
  | [], [], [], h, _ => by simp [memcmp] at h
  | [], _ :: _, [], _, h => by simp [memcmp] at h
  | _ :: _, [], _, h, _ => by simp [memcmp] at h
  | _ :: _, _ :: _, [], _, h => by simp [memcmp] at h
  | a :: as, b :: bs, c :: cs, hab, hbc => by
    simp only [memcmp] at *
    rcases Nat.lt_trichotomy a b with h1 | h1 | h1
    · rcases Nat.lt_trichotomy b c with h2 | h2 | h2
      · have : a < c := Nat.lt_trans h1 h2
        simp [this]
      · subst h2; simp [h1]
      · rw [if_neg (by omega), if_pos h2] at hbc
        exact Ordering.noConfusion hbc
    · subst h1
      rcases Nat.lt_trichotomy a c with h2 | h2 | h2
      · simp [h2]
      · subst h2
        rw [if_neg (Nat.lt_irrefl a), if_neg (Nat.lt_irrefl a)] at hab hbc ⊢
        exact memcmp_lt_trans as bs cs hab hbc
      · rw [if_neg (by omega), if_pos h2] at hbc
        exact Ordering.noConfusion hbc
    · rw [if_neg (by omega), if_pos h1] at hab
      exact Ordering.noConfusion hab

theorem recLe_iff (a b : Record) : recLe a b ↔ recLt a b ∨ a = b := by
  unfold recLe recLt
  cases h : memcmp a b with
  | lt => simp
  | eq => simp [← memcmp_eq_iff a b, h]
  | gt =>
    simp only [ne_eq, not_true_eq_false, false_iff, not_or]
    constructor
    · simp [h]
    · intro hab; rw [hab, memcmp_refl] at h; exact Ordering.noConfusion h

theorem recLt_irrefl (a : Record) : ¬ recLt a a := by
  unfold recLt; rw [memcmp_refl]; simp

theorem recLt_trans {a b c : Record} : recLt a b → recLt b c → recLt a c :=
  memcmp_lt_trans a b c

theorem recLt_asymm {a b : Record} : recLt a b → ¬ recLt b a := by
  intro h1 h2
  exact recLt_irrefl a (recLt_trans h1 h2)

theorem recLt_of_le_of_ne {a b : Record} (h : recLe a b) (hne : a ≠ b) : recLt a b := by
  rcases (recLe_iff a b).mp h with h' | h'
  · exact h'
  · exact absurd h' hne

theorem recLt_of_lt_of_le {a b c : Record} (h1 : recLt a b) (h2 : recLe b c) : recLt a c := by
  rcases (recLe_iff b c).mp h2 with h' | h'
  · exact recLt_trans h1 h'
  · exact h' ▸ h1

theorem recLe_of_lt {a b : Record} (h : recLt a b) : recLe a b :=
  (recLe_iff a b).mpr (Or.inl h)

theorem recLe_refl (a : Record) : recLe a a :=
  (recLe_iff a a).mpr (Or.inr rfl)

theorem recLe_total (a b : Record) : recLe a b ∨ recLe b a := by
  unfold recLe
  cases h : memcmp a b with
  | lt => left; simp [h]
  | eq => left; simp [h]
  | gt => right; rw [memcmp_swap a b, h]; simp [Ordering.swap]

theorem not_recLe (a b : Record) (h : ¬ recLe a b) : recLt b a := by
  unfold recLe at h
  push_neg at h
  unfold recLt
  rw [memcmp_swap a b, h]
  rfl

instance : IsTotal Record recLe := ⟨recLe_total⟩

instance : IsTrans Record recLe :=
  ⟨by
    intro a b c h1 h2
    rcases (recLe_iff a b).mp h1 with h1' | h1'
    · exact recLe_of_lt (recLt_of_lt_of_le h1' h2)
    · exact h1' ▸ h2⟩

instance : IsAntisymm Record recLt :=
  ⟨fun _ _ h1 h2 => absurd h1 (recLt_asymm h2)⟩

theorem mem_of_mem_dedupeFrom :
    ∀ (p : Option Record) (l : List Record) (x : Record),
      x ∈ dedupeFrom p l → x ∈ l := by
  intro p l
  induction l generalizing p with
  | nil => intro x h; cases p <;> simp [dedupeFrom] at h
  | cons y ys ih =>
    intro x h
    cases p with
    | none =>
      simp only [dedupeFrom, List.mem_cons] at h ⊢
      rcases h with h | h
      · exact Or.inl h
      · exact Or.inr (ih (some y) x h)
    | some q =>
      simp only [dedupeFrom] at h
      by_cases hq : memcmp q y = .eq
      · rw [if_pos hq] at h
        exact List.mem_cons_of_mem y (ih (some q) x h)
      · rw [if_neg hq] at h
        simp only [List.mem_cons] at h ⊢
        rcases h with h | h
        · exact Or.inl h
        · exact Or.inr (ih (some y) x h)

theorem mem_dedupeFrom_of_mem :
    ∀ (p : Option Record) (l : List Record) (x : Record),
      x ∈ l → x ∈ dedupeFrom p l ∨ p = some x := by
  intro p l
  induction l generalizing p with
  | nil => intro x h; simp at h
  | cons y ys ih =>
    intro x h
    rcases List.mem_cons.mp h with rfl | hxs
    · cases p with
      | none => left; simp [dedupeFrom]
      | some q =>
        by_cases hq : memcmp q x = .eq
        · right
          rw [memcmp_eq_iff] at hq
          rw [hq]
        · left
          simp [dedupeFrom, hq]
    · cases p with
      | none =>
        rcases ih (some y) x hxs with h' | h'
        · left; simp [dedupeFrom]; right; exact h'
        · left
          simp only [Option.some.injEq] at h'
          simp [dedupeFrom, h']
      | some q =>
        by_cases hq : memcmp q y = .eq
        · rcases ih (some q) x hxs with h' | h'
          · left; simp [dedupeFrom, hq]; exact h'
          · right; exact h'
        · rcases ih (some y) x hxs with h' | h'
          · left; simp [dedupeFrom, hq]; right; exact h'
          · left
            simp only [Option.some.injEq] at h'
            subst h'
            simp [dedupeFrom, hq]

theorem mem_dedupeAdj (l : List Record) (x : Record) :
    x ∈ dedupeAdj l ↔ x ∈ l := by
  constructor
  · exact mem_of_mem_dedupeFrom none l x
  · intro h
    rcases mem_dedupeFrom_of_mem none l x h with h' | h'
    · exact h'
    · exact Option.noConfusion h'

theorem dedupeFrom_some_strict :
    ∀ (p : Record) (l : List Record), List.Sorted recLe l → (∀ x ∈ l, recLe p x) →
      List.Pairwise recLt (dedupeFrom (some p) l) ∧
        ∀ x ∈ dedupeFrom (some p) l, recLt p x := by
  intro p l
  induction l generalizing p with
  | nil => intro _ _; simp [dedupeFrom]
  | cons y ys ih =>
    intro hs hp
    have hy : recLe p y := hp y (List.mem_cons_self y ys)
    have hys : List.Sorted recLe ys := (List.sorted_cons.mp hs).2
    have hybnd : ∀ x ∈ ys, recLe y x := (List.sorted_cons.mp hs).1
    by_cases hq : memcmp p y = .eq
    · rw [memcmp_eq_iff] at hq
      subst hq
      simp only [dedupeFrom, memcmp_refl, if_pos]
      exact ih p hys hybnd
    · simp only [dedupeFrom, if_neg hq]
      have hpy : recLt p y := recLt_of_le_of_ne hy (fun h => hq ((memcmp_eq_iff p y).mpr h))
      obtain ⟨ihp, ihb⟩ := ih y hys hybnd
      refine ⟨List.pairwise_cons.mpr ⟨ihb, ihp⟩, ?_⟩
      intro x hx
      rcases List.mem_cons.mp hx with rfl | hx'
      · exact hpy
      · exact recLt_trans hpy (ihb x hx')

/-- On a byte-wise sorted list, the adjacent-duplicate-removal pass yields a
strictly increasing list. -/
theorem dedupeAdj_strict (l : List Record) (hs : List.Sorted recLe l) :
    List.Pairwise recLt (dedupeAdj l) := by
  cases l with
  | nil => simp [dedupeAdj, dedupeFrom]
  | cons y ys =>
    simp only [dedupeAdj, dedupeFrom]
    obtain ⟨hpair, _⟩ :=
      dedupeFrom_some_strict y ys (List.sorted_cons.mp hs).2 (List.sorted_cons.mp hs).1
    exact List.pairwise_cons.mpr
      ⟨(dedupeFrom_some_strict y ys (List.sorted_cons.mp hs).2 (List.sorted_cons.mp hs).1).2,
       hpair⟩

theorem mem_mergeUniq (as bs : List Record) (x : Record) :
    x ∈ mergeUniq as bs ↔ x ∈ as ∨ x ∈ bs := by
  induction as, bs using mergeUniq.induct with
  | case1 bs => simp [mergeUniq]
  | case2 a as' => simp [mergeUniq]
  | case3 a as' b bs' heq ih =>
    have hab : a = b := (memcmp_eq_iff a b).mp heq
    simp only [mergeUniq, heq, List.mem_cons, ih]
    subst hab
    tauto
  | case4 a as' b bs' heq ih =>
    simp only [mergeUniq, heq, List.mem_cons, ih]
    tauto
  | case5 a as' b bs' heq ih =>
    simp only [mergeUniq, heq, List.mem_cons, ih]
    tauto

theorem mergeUniq_strict (as bs : List Record)
    (ha : List.Pairwise recLt as) (hb : List.Pairwise recLt bs) :
    List.Pairwise recLt (mergeUniq as bs) := by
  induction as, bs using mergeUniq.induct with
  | case1 bs => simpa [mergeUniq] using hb
  | case2 a as' => simpa [mergeUniq] using ha
  | case3 a as' b bs' heq ih =>
    have hab : a = b := (memcmp_eq_iff a b).mp heq
    subst hab
    simp only [mergeUniq, heq]
    refine List.pairwise_cons.mpr ⟨?_, ih ha.of_cons hb.of_cons⟩
    intro y hy
    rcases (mem_mergeUniq _ _ y).mp hy with h | h
    · exact (List.pairwise_cons.mp ha).1 y h
    · exact (List.pairwise_cons.mp hb).1 y h
  | case4 a as' b bs' heq ih =>
    simp only [mergeUniq, heq]
    refine List.pairwise_cons.mpr ⟨?_, ih ha.of_cons hb⟩
    intro y hy
    rcases (mem_mergeUniq _ _ y).mp hy with h | h
    · exact (List.pairwise_cons.mp ha).1 y h
    · rcases List.mem_cons.mp h with rfl | h'
      · exact heq
      · exact recLt_trans heq ((List.pairwise_cons.mp hb).1 y h')
  | case5 a as' b bs' heq ih =>
    simp only [mergeUniq, heq]
    have hba : recLt b a := by
      unfold recLt
      rw [memcmp_swap a b, heq]
      rfl
    refine List.pairwise_cons.mpr ⟨?_, ih ha hb.of_cons⟩
    intro y hy
    rcases (mem_mergeUniq _ _ y).mp hy with h | h
    · rcases List.mem_cons.mp h with rfl | h'
      · exact hba
      · exact recLt_trans hba ((List.pairwise_cons.mp ha).1 y h')
    · exact (List.pairwise_cons.mp hb).1 y h

theorem mem_mergeLe (as bs : List Record) (x : Record) :
    x ∈ mergeLe as bs ↔ x ∈ as ∨ x ∈ bs := by
  induction as, bs using mergeLe.induct with
  | case1 bs => simp [mergeLe]
  | case2 a as' => simp [mergeLe]
  | case3 a as' b bs' hle ih =>
    simp only [mergeLe, if_pos hle, List.mem_cons, ih]
    tauto
  | case4 a as' b bs' hgt ih =>
    simp only [mergeLe, if_neg hgt, List.mem_cons, ih]
    tauto

theorem mergeLe_sorted (as bs : List Record)
    (ha : List.Sorted recLe as) (hb : List.Sorted recLe bs) :
    List.Sorted recLe (mergeLe as bs) := by
  induction as, bs using mergeLe.induct with
  | case1 bs => simpa [mergeLe] using hb
  | case2 a as' => simpa [mergeLe] using ha
  | case3 a as' b bs' hle ih =>
    simp only [mergeLe, if_pos hle]
    refine List.sorted_cons.mpr ⟨?_, ih ha.of_cons hb⟩
    intro y hy
    rcases (mem_mergeLe _ _ y).mp hy with h | h
    · exact (List.sorted_cons.mp ha).1 y h
    · rcases List.mem_cons.mp h with rfl | h'
      · exact hle
      · exact IsTrans.trans (r := recLe) _ _ _ hle ((List.sorted_cons.mp hb).1 y h')
  | case4 a as' b bs' hgt ih =>
    simp only [mergeLe, if_neg hgt]
    have hba : recLe b a := recLe_of_lt (not_recLe a b (by simpa [recLe] using hgt))
    refine List.sorted_cons.mpr ⟨?_, ih ha hb.of_cons⟩
    intro y hy
    rcases (mem_mergeLe _ _ y).mp hy with h | h
    · rcases List.mem_cons.mp h with rfl | h'
      · exact hba
      · exact IsTrans.trans (r := recLe) _ _ _ hba ((List.sorted_cons.mp ha).1 y h')
    · exact (List.sorted_cons.mp hb).1 y h

theorem mergeLe_length (as bs : List Record) :
    (mergeLe as bs).length = as.length + bs.length := by
  induction as, bs using mergeLe.induct with
  | case1 bs => simp [mergeLe]
  | case2 a as' => simp [mergeLe]
  | case3 a as' b bs' hle ih => simp [mergeLe, if_pos hle, ih]; omega
  | case4 a as' b bs' hgt ih => simp [mergeLe, if_neg hgt, ih]; omega

/-! ### Strictly sorted lists are canonical -/

theorem recLt_ne {a b : Record} (h : recLt a b) : a ≠ b := by
  intro heq
  exact recLt_irrefl a (heq ▸ h)

theorem strict_nodup {l : List Record} (h : List.Pairwise recLt l) : l.Nodup :=
  h.imp recLt_ne

/-- Two strictly byte-wise sorted lists with the same members are equal:
the sorted, duplicate-free zone is determined by the set it represents. -/
theorem strict_eq_of_mem_iff {l1 l2 : List Record}
    (h1 : List.Pairwise recLt l1) (h2 : List.Pairwise recLt l2)
    (h : ∀ x, x ∈ l1 ↔ x ∈ l2) : l1 = l2 := by
  have hp : l1.Perm l2 :=
    List.perm_of_nodup_nodup_toFinset_eq (strict_nodup h1) (strict_nodup h2)
      (List.toFinset.ext h)
  exact List.eq_of_perm_of_sorted hp h1 h2

/-- The length of a strictly sorted list with the same members as `vs` is
the number of distinct values of `vs`. -/
theorem strict_length_eq_dedup {l vs : List Record}
    (h1 : List.Pairwise recLt l) (h : ∀ x, x ∈ l ↔ x ∈ vs) :
    l.length = vs.dedup.length := by
  have hnodup : l.Nodup := strict_nodup h1
  calc l.length = l.toFinset.card := (List.toFinset_card_of_nodup hnodup).symm
    _ = vs.toFinset.card := by rw [List.toFinset.ext h]
    _ = vs.dedup.length := List.card_toFinset vs

/-! ### Compaction -/

theorem compactPhase1_spec (is : Nat) (e : ESet) (h : WF is e) :
    (compactPhase1 e).item_size = is ∧
    (compactPhase1 e).typalign = e.typalign ∧
    (compactPhase1 e).aggctx = e.aggctx ∧
    (compactPhase1 e).nbytes = e.nbytes ∧
    (compactPhase1 e).nsorted = (compactPhase1 e).nall ∧
    (compactPhase1 e).data.length = (compactPhase1 e).nall ∧
    List.Pairwise recLt (compactPhase1 e).data ∧
    (∀ r, r ∈ (compactPhase1 e).data ↔ r ∈ e.data) := by
  obtain ⟨his, hlen, hns, _, hsorted⟩ := h
  unfold compactPhase1
  by_cases hlt : e.nsorted < e.nall
  · rw [if_pos hlt]
    have hsortmem : ∀ x, x ∈ List.insertionSort recLe (e.data.drop e.nsorted) ↔
        x ∈ e.data.drop e.nsorted := fun x => List.mem_insertionSort recLe
    have hsorted' : List.Sorted recLe (List.insertionSort recLe (e.data.drop e.nsorted)) :=
      List.sorted_insertionSort recLe (e.data.drop e.nsorted)
    have hddstrict :
        List.Pairwise recLt (dedupeAdj (List.insertionSort recLe (e.data.drop e.nsorted))) :=
      dedupeAdj_strict _ hsorted'
    have hddmem : ∀ x, x ∈ dedupeAdj (List.insertionSort recLe (e.data.drop e.nsorted)) ↔
        x ∈ e.data.drop e.nsorted := fun x =>
      (mem_dedupeAdj _ x).trans (hsortmem x)
    by_cases hz : e.nsorted = 0
    · rw [if_pos hz]
      refine ⟨his, rfl, rfl, rfl, rfl, rfl, hddstrict, ?_⟩
      intro r
      rw [hddmem r, hz, List.drop_zero]
    · rw [if_neg hz]
      have htakestrict : List.Pairwise recLt (e.data.take e.nsorted) := hsorted
      refine ⟨his, rfl, rfl, rfl, rfl, rfl, mergeUniq_strict _ _ htakestrict hddstrict, ?_⟩
      intro r
      rw [mem_mergeUniq, hddmem r]
      constructor
      · rintro (hr | hr)
        · exact List.mem_of_mem_take hr
        · exact List.mem_of_mem_drop hr
      · intro hr
        rw [← List.take_append_drop e.nsorted e.data, List.mem_append] at hr
        exact hr
  · rw [if_neg hlt]
    have heq : e.nsorted = e.nall := le_antisymm hns (not_lt.mp hlt)
    have htake : e.data.take e.nsorted = e.data :=
      List.take_of_length_le (by rw [hlen, heq])
    exact ⟨his, rfl, rfl, rfl, heq, hlen, htake ▸ hsorted, fun r => Iff.rfl⟩

theorem compact_set_cases (e : ESet) (b : Bool) :
    compact_set e b = compactPhase1 e ∨
      compact_set e b =
        { compactPhase1 e with nbytes := grownCap (compactPhase1 e).nbytes } := by
  unfold compact_set
  by_cases h : (b && decide (5 * ((compactPhase1 e).nbytes -
      (compactPhase1 e).nall * (compactPhase1 e).item_size) < (compactPhase1 e).nbytes)) = true
  · right; rw [if_pos h]
  · left; rw [if_neg h]

theorem compact_set_fields (e : ESet) (b : Bool) :
    (compact_set e b).data = (compactPhase1 e).data ∧
    (compact_set e b).nall = (compactPhase1 e).nall ∧
    (compact_set e b).nsorted = (compactPhase1 e).nsorted ∧
    (compact_set e b).item_size = (compactPhase1 e).item_size ∧
    (compact_set e b).typalign = (compactPhase1 e).typalign ∧
    (compact_set e b).aggctx = (compactPhase1 e).aggctx := by
  rcases compact_set_cases e b with h | h <;> rw [h] <;> exact ⟨rfl, rfl, rfl, rfl, rfl, rfl⟩

/-- Semantic summary of `compact_set` on a well-formed state: the result is
a fully sorted, duplicate-free accumulator holding exactly the same set of
records. -/
theorem compact_set_spec (is : Nat) (e : ESet) (b : Bool) (h : WF is e) :
    WF is (compact_set e b) ∧
    (compact_set e b).nsorted = (compact_set e b).nall ∧
    (compact_set e b).data.length = (compact_set e b).nall ∧
    List.Pairwise recLt (compact_set e b).data ∧
    (∀ r, r ∈ (compact_set e b).data ↔ r ∈ e.data) ∧
    (compact_set e b).typalign = e.typalign ∧
    (compact_set e b).aggctx = e.aggctx := by
  obtain ⟨p_is, p_ta, p_ctx, _, p_sn, p_len, p_strict, p_mem⟩ := compactPhase1_spec is e h
  obtain ⟨f_data, f_nall, f_ns, f_is, f_ta, f_ctx⟩ := compact_set_fields e b
  have hrl : ∀ r ∈ (compact_set e b).data, r.length = is := by
    intro r hr
    rw [f_data] at hr
    exact h.2.2.2.1 r ((p_mem r).mp hr)
  have htake : (compact_set e b).data.take (compact_set e b).nsorted = (compact_set e b).data :=
    List.take_of_length_le (by rw [f_data, f_ns, p_len, p_sn])
  refine ⟨⟨by rw [f_is, p_is], by rw [f_data, f_nall, p_len],
      by rw [f_ns, f_nall, p_sn], hrl, ?_⟩, by rw [f_ns, f_nall, p_sn],
      by rw [f_data, f_nall, p_len], by rw [f_data]; exact p_strict,
      fun r => by rw [f_data]; exact p_mem r, by rw [f_ta, p_ta], by rw [f_ctx, p_ctx]⟩
  rw [htake, f_data]
  exact p_strict

/-- A fully compacted, exactly sized accumulator is a fixed point of
finalization-mode compaction. -/
theorem compact_set_noop (is : Nat) (e : ESet) (h : Compacted is e) :
    compact_set e false = e := by
  obtain ⟨_, hsn, _, _, _, _⟩ := h
  unfold compact_set compactPhase1
  rw [hsn]
  simp

/-! ### Appending and building -/

theorem add_element_spec (is : Nat) (e : ESet) (v : Record)
    (h : WF is e) (hv : v.length = is) :
    WF is (add_element e v) ∧
    (∀ r, r ∈ (add_element e v).data ↔ r ∈ e.data ∨ r = v) ∧
    (add_element e v).typalign = e.typalign ∧
    (add_element e v).aggctx = e.aggctx := by
  have key : ∀ e1 : ESet, WF is e1 → (∀ r, r ∈ e1.data ↔ r ∈ e.data) →
      e1.typalign = e.typalign → e1.aggctx = e.aggctx →
      WF is { e1 with data := e1.data ++ [v], nall := e1.nall + 1 } ∧
      (∀ r, r ∈ e1.data ++ [v] ↔ r ∈ e.data ∨ r = v) ∧
      e1.typalign = e.typalign ∧ e1.aggctx = e.aggctx := by
    intro e1 h1 hmem hta hctx
    obtain ⟨h_is, h_len, h_ns, h_rl, h_sorted⟩ := h1
    refine ⟨⟨h_is, ?_, ?_, ?_, ?_⟩, ?_, hta, hctx⟩
    · show (e1.data ++ [v]).length = e1.nall + 1
      simp [h_len]
    · show e1.nsorted ≤ e1.nall + 1
      omega
    · show ∀ r ∈ e1.data ++ [v], r.length = is
      intro r hr
      rcases List.mem_append.mp hr with hr | hr
      · exact h_rl r hr
      · rw [List.mem_singleton.mp hr]; exact hv
    · show List.Pairwise recLt ((e1.data ++ [v]).take e1.nsorted)
      rw [List.take_append_of_le_length (by omega : e1.nsorted ≤ e1.data.length)]
      exact h_sorted
    · intro r
      show r ∈ e1.data ++ [v] ↔ r ∈ e.data ∨ r = v
      rw [List.mem_append, List.mem_singleton, hmem r]
  unfold add_element
  by_cases hcond : e.nbytes < e.item_size * (e.nall + 1)
  · rw [if_pos hcond]
    obtain ⟨c_wf, _, _, _, c_mem, c_ta, c_ctx⟩ := compact_set_spec is e true h
    exact key _ c_wf c_mem c_ta c_ctx
  · rw [if_neg hcond]
    exact key e h (fun r => Iff.rfl) rfl rfl

theorem foldl_add_spec (is : Nat) :
    ∀ (vs : List Record) (e : ESet), WF is e → (∀ r ∈ vs, r.length = is) →
      WF is (vs.foldl add_element e) ∧
      (∀ r, r ∈ (vs.foldl add_element e).data ↔ r ∈ e.data ∨ r ∈ vs) ∧
      (vs.foldl add_element e).typalign = e.typalign ∧
      (vs.foldl add_element e).aggctx = e.aggctx := by
  intro vs
  induction vs with
  | nil =>
    intro e he _
    exact ⟨he, fun r => by simp, rfl, rfl⟩
  | cons v vs ih =>
    intro e he hl
    obtain ⟨a_wf, a_mem, a_ta, a_ctx⟩ :=
      add_element_spec is e v he (hl v (List.mem_cons_self v vs))
    obtain ⟨f_wf, f_mem, f_ta, f_ctx⟩ :=
      ih (add_element e v) a_wf (fun r hr => hl r (List.mem_cons_of_mem v hr))
    refine ⟨f_wf, ?_, by rw [List.foldl_cons, f_ta, a_ta], by rw [List.foldl_cons, f_ctx, a_ctx]⟩
    intro r
    rw [List.foldl_cons, f_mem r, a_mem r, List.mem_cons]
    tauto

theorem init_set_wf (is ta ctx : Nat) : WF is (init_set is ta ctx) :=
  ⟨rfl, rfl, le_refl 0, by intro r hr; simp [init_set] at hr, by simp [init_set]⟩

theorem buildESet_spec (is : Nat) (vs : List Record) (hl : ∀ r ∈ vs, r.length = is) :
    WF is (buildESet is vs) ∧
    (∀ r, r ∈ (buildESet is vs).data ↔ r ∈ vs) ∧
    (buildESet is vs).typalign = 0 ∧
    (buildESet is vs).aggctx = 0 := by
  obtain ⟨f_wf, f_mem, f_ta, f_ctx⟩ := foldl_add_spec is vs (init_set is 0 0) (init_set_wf is 0 0) hl
  refine ⟨f_wf, ?_, f_ta, f_ctx⟩
  intro r
  rw [show (buildESet is vs).data = (vs.foldl add_element (init_set is 0 0)).data from rfl,
    f_mem r]
  simp [init_set]

/-! ### Claim C1: count correctness -/

/-- **C1.**  For every finite multiset of non-null input records of the
accumulator's fixed width (the widths realizable through
`count_distinct_append` are the fixed-length by-value type widths 1, 2, 4
and 8 bytes, all divisors of `ARRAY_INIT_SIZE`; outside those the C code's
own `Assert(eset->nbytes >= eset->item_size * (eset->nall + 1))` in
`add_element` can fail, so the hypotheses restrict to them), appending the
records one at a time and then finalizing with `count_distinct` (which
forces compaction) returns a `total_count` (`nall`) equal to the number of
distinct records of the multiset — for every insertion order (`vs` ranges
over all of them) and however many intermediate compactions fired. -/
theorem count_distinct_correct (is : Nat) (vs : List Record)
    (hpos : 0 < is) (hdvd : is ∣ ARRAY_INIT_SIZE)
    (hlen : ∀ r ∈ vs, r.length = is) (hne : vs ≠ []) :
    count_distinct (some (buildESet is vs)) = some vs.dedup.length := by
  obtain ⟨b_wf, b_mem, _, _⟩ := buildESet_spec is vs hlen
  obtain ⟨_, _, c_len, c_strict, c_mem, _, _⟩ := compact_set_spec is _ false b_wf
  show some (compact_set (buildESet is vs) false).nall = some vs.dedup.length
  rw [← c_len]
  exact congrArg some (strict_length_eq_dedup c_strict fun x => (c_mem x).trans (b_mem x))

/-- Witness for C1: the spec's concrete scenario, records `[5,3,5,1,3,2]`
at width 4 (little-endian bytes), distinct count 4. -/
theorem count_distinct_correct_witness :
    count_distinct (some (buildESet 4
      [[5,0,0,0], [3,0,0,0], [5,0,0,0], [1,0,0,0], [3,0,0,0], [2,0,0,0]])) =
      some ([[5,0,0,0], [3,0,0,0], [5,0,0,0], [1,0,0,0], [3,0,0,0],
        [2,0,0,0]] : List Record).dedup.length :=
  count_distinct_correct 4 _ (by decide) (by decide) (by decide) (by decide)

/-! ### Claim C8: idempotence of compaction -/

theorem compactPhase1_nall_le (e : ESet) :
    (compactPhase1 e).nall ≤ (compactPhase1 e).nsorted := by
  unfold compactPhase1
  by_cases hlt : e.nsorted < e.nall
  · rw [if_pos hlt]
    by_cases hz : e.nsorted = 0
    · rw [if_pos hz]
    · rw [if_neg hz]
  · rw [if_neg hlt]
    exact not_lt.mp hlt

theorem compactPhase1_of_le (e : ESet) (h : e.nall ≤ e.nsorted) :
    compactPhase1 e = e := by
  unfold compactPhase1
  rw [if_neg (not_lt.mpr h)]

/-- **C8.**  For every accumulator state with at least one stored record,
running `compact_set` twice in a row (same `need_space` flag) produces the
same `sorted_count`, `total_count` and record contents as running it once
(the second run can only re-examine the growth condition, which never
touches the records or the counters). -/
theorem compact_set_idempotent (e : ESet) (need_space : Bool) (h : 0 < e.nall) :
    (compact_set (compact_set e need_space) need_space).nsorted =
      (compact_set e need_space).nsorted ∧
    (compact_set (compact_set e need_space) need_space).nall =
      (compact_set e need_space).nall ∧
    (compact_set (compact_set e need_space) need_space).data =
      (compact_set e need_space).data := by
  obtain ⟨f_data, f_nall, f_ns, _, _, _⟩ := compact_set_fields e need_space
  have h1 : (compact_set e need_space).nall ≤ (compact_set e need_space).nsorted := by
    rw [f_nall, f_ns]
    exact compactPhase1_nall_le e
  obtain ⟨g_data, g_nall, g_ns, _, _, _⟩ :=
    compact_set_fields (compact_set e need_space) need_space
  have hfix : compactPhase1 (compact_set e need_space) = compact_set e need_space :=
    compactPhase1_of_le _ h1
  exact ⟨by rw [g_ns, hfix], by rw [g_nall, hfix], by rw [g_data, hfix]⟩

/-- Witness for C8 at a concrete two-record state. -/
theorem compact_set_idempotent_witness :
    (compact_set (compact_set
        ⟨4, 0, 2, 32, 0, 0, [[2,0,0,0], [1,0,0,0]]⟩ true) true).nsorted =
      (compact_set ⟨4, 0, 2, 32, 0, 0, [[2,0,0,0], [1,0,0,0]]⟩ true).nsorted ∧
    (compact_set (compact_set
        ⟨4, 0, 2, 32, 0, 0, [[2,0,0,0], [1,0,0,0]]⟩ true) true).nall =
      (compact_set ⟨4, 0, 2, 32, 0, 0, [[2,0,0,0], [1,0,0,0]]⟩ true).nall ∧
    (compact_set (compact_set
        ⟨4, 0, 2, 32, 0, 0, [[2,0,0,0], [1,0,0,0]]⟩ true) true).data =
      (compact_set ⟨4, 0, 2, 32, 0, 0, [[2,0,0,0], [1,0,0,0]]⟩ true).data :=
  compact_set_idempotent ⟨4, 0, 2, 32, 0, 0, [[2,0,0,0], [1,0,0,0]]⟩ true (by decide)

/-! ### Serialization -/

theorem readRecords_flatten (is : Nat) :
    ∀ l : List Record, (∀ r ∈ l, r.length = is) →
      readRecords is l.length l.flatten = l := by
  intro l
  induction l with
  | nil => intro _; rfl
  | cons r rs ih =>
    intro h
    have hr : r.length = is := h r (List.mem_cons_self r rs)
    show readRecords is (rs.length + 1) ((r :: rs).flatten) = r :: rs
    rw [List.flatten_cons, readRecords, List.take_left' hr, List.drop_left' hr,
      ih fun x hx => h x (List.mem_cons_of_mem r hx)]

theorem flatten_length_uniform (is : Nat) :
    ∀ l : List Record, (∀ r ∈ l, r.length = is) →
      l.flatten.length = l.length * is := by
  intro l
  induction l with
  | nil => intro _; simp
  | cons r rs ih =>
    intro h
    rw [List.flatten_cons, List.length_append,
      ih fun x hx => h x (List.mem_cons_of_mem r hx),
      h r (List.mem_cons_self r rs), List.length_cons]
    ring

/-- Serializing a well-formed, non-empty accumulator and deserializing the
result reconstructs the compacted accumulator exactly, with storage sized
to precisely its live bytes. -/
theorem serial_deserial_spec (is : Nat) (e : ESet) (h : WF is e)
    (hpos : 0 < is) (hne : e.data ≠ []) :
    ∃ B, count_distinct_deserial (count_distinct_serial e) = some B ∧
      Compacted is B ∧
      B.data = (compact_set e false).data ∧
      B.nall = (compact_set e false).nall ∧
      B.typalign = e.typalign ∧ B.aggctx = e.aggctx := by
  obtain ⟨c_wf, c_sn, c_len, c_strict, c_mem, c_ta, c_ctx⟩ := compact_set_spec is e false h
  obtain ⟨c_is, c_dlen, _, c_rl, _⟩ := c_wf
  set c := compact_set e false with hc
  have hnall : 0 < c.nall := by
    obtain ⟨x, hx⟩ := List.exists_mem_of_ne_nil e.data hne
    have hx' : x ∈ c.data := (c_mem x).mpr hx
    rw [← c_len]
    exact List.length_pos.mpr (List.ne_nil_of_mem hx')
  have htake : c.data.take c.nall = c.data := List.take_of_length_le (le_of_eq c_len)
  have hread : readRecords c.item_size c.nall ((c.data.take c.nall).flatten) = c.data := by
    rw [htake, c_is, ← c_len, readRecords_flatten is _ c_rl]
  have hcond1 : (count_distinct_serial e).len ≠ 0 := by
    show headerSize + c.nall * c.item_size ≠ 0
    simp [headerSize]
  have hcond2 : (count_distinct_serial e).len ≠ headerSize := by
    show headerSize + c.nall * c.item_size ≠ headerSize
    have : 0 < c.nall * c.item_size := Nat.mul_pos hnall (c_is ▸ hpos)
    omega
  have hcond3 : ¬¬(0 < (count_distinct_serial e).hdr_nall ∧
      (count_distinct_serial e).hdr_nall = (count_distinct_serial e).hdr_nsorted) :=
    not_not_intro ⟨hnall, c_sn.symm⟩
  have hcond4 : ¬((count_distinct_serial e).len ≠
      headerSize + (count_distinct_serial e).hdr_nall * (count_distinct_serial e).hdr_item_size) :=
    not_not_intro rfl
  refine ⟨⟨c.item_size, c.nsorted, c.nall, c.nall * c.item_size, c.typalign, c.aggctx,
      readRecords c.item_size c.nall ((c.data.take c.nall).flatten)⟩,
    ?_, ?_, hread, rfl, c_ta, c_ctx⟩
  · show count_distinct_deserial (count_distinct_serial e) = some _
    unfold count_distinct_deserial
    rw [if_neg hcond1, if_neg hcond2, if_neg hcond3, if_neg hcond4]
    rfl
  · refine ⟨c_is, c_sn, ?_, by rw [c_is], ?_, ?_⟩
    · show (readRecords c.item_size c.nall ((c.data.take c.nall).flatten)).length = c.nall
      rw [hread, c_len]
    · show ∀ r ∈ readRecords c.item_size c.nall ((c.data.take c.nall).flatten), r.length = is
      rw [hread]
      exact c_rl
    · show List.Pairwise recLt (readRecords c.item_size c.nall ((c.data.take c.nall).flatten))
      rw [hread]
      exact c_strict

/-! ### Claim C3: serialize round-trip -/

/-- **C3.**  For every non-empty accumulator built from appended records,
deserializing the serialized bytes yields an accumulator that finalizes
identically: same `total_count` and the same sorted, duplicate-free record
sequence. -/
theorem serialize_roundtrip (is : Nat) (vs : List Record)
    (hpos : 0 < is) (hlen : ∀ r ∈ vs, r.length = is) (hne : vs ≠ []) :
    ∃ B, count_distinct_deserial (count_distinct_serial (buildESet is vs)) = some B ∧
      count_distinct (some B) = count_distinct (some (buildESet is vs)) ∧
      finalizeSeq B = finalizeSeq (buildESet is vs) := by
  obtain ⟨b_wf, b_mem, _, _⟩ := buildESet_spec is vs hlen
  have hdne : (buildESet is vs).data ≠ [] := by
    obtain ⟨x, hx⟩ := List.exists_mem_of_ne_nil vs hne
    exact List.ne_nil_of_mem ((b_mem x).mpr hx)
  obtain ⟨B, hB, hBc, hBdata, hBnall, _, _⟩ := serial_deserial_spec is _ b_wf hpos hdne
  have hnoop := compact_set_noop is B hBc
  refine ⟨B, hB, ?_, ?_⟩
  · show some (compact_set B false).nall = some (compact_set (buildESet is vs) false).nall
    rw [hnoop, hBnall]
  · show (compact_set B false).data = (compact_set (buildESet is vs) false).data
    rw [hnoop, hBdata]

/-- Witness for C3: records `[10,20,30]` at width 4. -/
theorem serialize_roundtrip_witness :
    ∃ B, count_distinct_deserial (count_distinct_serial
        (buildESet 4 [[10,0,0,0], [20,0,0,0], [30,0,0,0]])) = some B ∧
      count_distinct (some B) =
        count_distinct (some (buildESet 4 [[10,0,0,0], [20,0,0,0], [30,0,0,0]])) ∧
      finalizeSeq B = finalizeSeq (buildESet 4 [[10,0,0,0], [20,0,0,0], [30,0,0,0]]) :=
  serialize_roundtrip 4 _ (by decide) (by decide) (by decide)

/-! ### Claim C4: the serialized layout -/

/-- **C4 (counterexample).**  The serialized stream is *not* just the four
`uint32` header fields immediately followed by the record bytes: the header
`memcpy` covers `offsetof(element_set_t, data)` bytes, which includes the
`typalign` char (and the `aggctx` pointer) lying between the counters and
the `data` pointer.  Two accumulators agreeing on `item_size`, `nsorted`,
`nall`, `nbytes` and on their record data but differing in `typalign`
serialize to different streams, which is impossible for the claimed
layout. -/
theorem serial_header_counterexample :
    (⟨1, 1, 1, 1, 0, 0, [[7]]⟩ : ESet).item_size =
      (⟨1, 1, 1, 1, 1, 0, [[7]]⟩ : ESet).item_size ∧
    (⟨1, 1, 1, 1, 0, 0, [[7]]⟩ : ESet).nsorted =
      (⟨1, 1, 1, 1, 1, 0, [[7]]⟩ : ESet).nsorted ∧
    (⟨1, 1, 1, 1, 0, 0, [[7]]⟩ : ESet).nall =
      (⟨1, 1, 1, 1, 1, 0, [[7]]⟩ : ESet).nall ∧
    (⟨1, 1, 1, 1, 0, 0, [[7]]⟩ : ESet).nbytes =
      (⟨1, 1, 1, 1, 1, 0, [[7]]⟩ : ESet).nbytes ∧
    (⟨1, 1, 1, 1, 0, 0, [[7]]⟩ : ESet).data =
      (⟨1, 1, 1, 1, 1, 0, [[7]]⟩ : ESet).data ∧
    count_distinct_serial ⟨1, 1, 1, 1, 0, 0, [[7]]⟩ ≠
      count_distinct_serial ⟨1, 1, 1, 1, 1, 0, [[7]]⟩ := by
  decide

/-- **C4 (amended).**  For every non-empty built accumulator the serialized
stream is the full struct-header prefix — the four `uint32` fields
`item_size`, `sorted_count = total_count`, `total_count`, `capacity_bytes`
*together with* the `typalign` and memory-context fields that share the
header `memcpy` — immediately followed by exactly
`total_count * item_size` bytes of strictly sorted, duplicate-free record
data, and nothing else. -/
theorem serial_format (is : Nat) (vs : List Record)
    (hpos : 0 < is) (hlen : ∀ r ∈ vs, r.length = is) (hne : vs ≠ []) :
    count_distinct_serial (buildESet is vs) =
      ⟨headerSize + (compact_set (buildESet is vs) false).nall * is,
       is,
       (compact_set (buildESet is vs) false).nall,
       (compact_set (buildESet is vs) false).nall,
       (compact_set (buildESet is vs) false).nbytes,
       (buildESet is vs).typalign,
       (buildESet is vs).aggctx,
       (compact_set (buildESet is vs) false).data.flatten⟩ ∧
    List.Chain' recLt (compact_set (buildESet is vs) false).data ∧
    (compact_set (buildESet is vs) false).data.flatten.length =
      (compact_set (buildESet is vs) false).nall * is := by
  obtain ⟨b_wf, b_mem, _, _⟩ := buildESet_spec is vs hlen
  obtain ⟨c_wf, c_sn, c_len, c_strict, c_mem, c_ta, c_ctx⟩ :=
    compact_set_spec is (buildESet is vs) false b_wf
  obtain ⟨c_is, c_dlen, _, c_rl, _⟩ := c_wf
  set c := compact_set (buildESet is vs) false with hc
  have htake : c.data.take c.nall = c.data := List.take_of_length_le (le_of_eq c_len)
  refine ⟨?_, c_strict.chain', ?_⟩
  · show (⟨headerSize + c.nall * c.item_size, c.item_size, c.nsorted, c.nall, c.nbytes,
        c.typalign, c.aggctx, (c.data.take c.nall).flatten⟩ : SerialBytes) = _
    rw [c_is, c_sn, c_ta, c_ctx, htake]
  · rw [flatten_length_uniform is c.data c_rl, c_len]

/-- Witness for C4 (amended) at the concrete scenario `[10,20,30]`,
width 4. -/
theorem serial_format_witness :
    count_distinct_serial (buildESet 4 [[10,0,0,0], [20,0,0,0], [30,0,0,0]]) =
      ⟨headerSize +
         (compact_set (buildESet 4 [[10,0,0,0], [20,0,0,0], [30,0,0,0]]) false).nall * 4,
       4,
       (compact_set (buildESet 4 [[10,0,0,0], [20,0,0,0], [30,0,0,0]]) false).nall,
       (compact_set (buildESet 4 [[10,0,0,0], [20,0,0,0], [30,0,0,0]]) false).nall,
       (compact_set (buildESet 4 [[10,0,0,0], [20,0,0,0], [30,0,0,0]]) false).nbytes,
       (buildESet 4 [[10,0,0,0], [20,0,0,0], [30,0,0,0]]).typalign,
       (buildESet 4 [[10,0,0,0], [20,0,0,0], [30,0,0,0]]).aggctx,
       (compact_set (buildESet 4 [[10,0,0,0], [20,0,0,0], [30,0,0,0]]) false).data.flatten⟩ ∧
    List.Chain' recLt
      (compact_set (buildESet 4 [[10,0,0,0], [20,0,0,0], [30,0,0,0]]) false).data ∧
    (compact_set (buildESet 4 [[10,0,0,0], [20,0,0,0], [30,0,0,0]]) false).data.flatten.length =
      (compact_set (buildESet 4 [[10,0,0,0], [20,0,0,0], [30,0,0,0]]) false).nall * 4 :=
  serial_format 4 _ (by decide) (by decide) (by decide)

/-! ### Claim C5: deserialization rejects corrupt input -/

/-- **C5.**  `count_distinct_deserial` fails fatally (its validating
`Assert`s abort a checking build, modelled as `none`) on every byte stream
whose declared length is inconsistent with the header-declared counts
(`len != offsetof(element_set_t, data) + nall * item_size`) and on every
stream declaring `total_count = 0`; no accumulator is returned. -/
theorem deserial_rejects_corrupt (s : SerialBytes)
    (h : s.len ≠ headerSize + s.hdr_nall * s.hdr_item_size ∨ s.hdr_nall = 0) :
    count_distinct_deserial s = none := by
  unfold count_distinct_deserial
  by_cases h1 : s.len = 0
  · rw [if_pos h1]
  · rw [if_neg h1]
    by_cases h2 : s.len = headerSize
    · rw [if_pos h2]
    · rw [if_neg h2]
      by_cases h3 : ¬(0 < s.hdr_nall ∧ s.hdr_nall = s.hdr_nsorted)
      · rw [if_pos h3]
      · rw [if_neg h3]
        rw [not_not] at h3
        have h4 : s.len ≠ headerSize + s.hdr_nall * s.hdr_item_size := by
          rcases h with h | h
          · exact h
          · omega
        rw [if_pos h4]

/-- Witness for C5: a serialized `[10,20,30]` stream (width 4) whose
byte-length field was corrupted to 10, and a stream declaring
`total_count = 0`. -/
theorem deserial_rejects_corrupt_witness :
    count_distinct_deserial
      ⟨10, 4, 3, 3, 12, 0, 0,
        [10,0,0,0, 20,0,0,0, 30,0,0,0]⟩ = none ∧
    count_distinct_deserial ⟨headerSize, 4, 0, 0, 0, 0, 0, []⟩ = none :=
  ⟨deserial_rejects_corrupt _ (by decide), deserial_rejects_corrupt _ (by decide)⟩

/-! ### The combine merge loop -/

theorem mergeLe_nil_right (as : List Record) : mergeLe as [] = as := by
  cases as with
  | nil => simp [mergeLe]
  | cons a as' => simp [mergeLe]

theorem slotInBounds_iff (e : ESet) (hcap : e.nbytes = e.nall * e.item_size)
    (hpos : 0 < e.item_size) (k : Nat) : slotInBounds e k ↔ k < e.nall := by
  unfold slotInBounds
  rw [hcap]
  exact Nat.mul_lt_mul_right hpos

theorem slotAt_lt (e : ESet) (k : Nat) (h : k < e.data.length) :
    slotAt e k = e.data[k] := by
  unfold slotAt
  rw [List.drop_eq_getElem_cons h]
  rfl

/-- Shifting one emission through the `prev`-based duplicate filter: the
loop state `(out, prev = out.getLast?)` absorbs the head of the remaining
merged sequence. -/
theorem emitDistinct_dedupe (out : List Record) (x : Record) (rest : List Record) :
    out ++ dedupeFrom out.getLast? (x :: rest) =
      emitDistinct out x ++ dedupeFrom (emitDistinct out x).getLast? rest := by
  cases hlast : out.getLast? with
  | none =>
    have hout : out = [] := List.getLast?_eq_none_iff.mp hlast
    subst hout
    have he : emitDistinct [] x = [x] := rfl
    rw [he]
    simp [dedupeFrom]
  | some p =>
    have he : emitDistinct out x = if memcmp p x = .eq then out else out ++ [x] := by
      unfold emitDistinct
      rw [hlast]
    by_cases hpx : memcmp p x = .eq
    · rw [he, if_pos hpx, hlast]
      show out ++ (if memcmp p x = .eq then dedupeFrom (some p) rest
        else x :: dedupeFrom (some x) rest) = out ++ dedupeFrom (some p) rest
      rw [if_pos hpx]
    · rw [he, if_neg hpx, List.getLast?_concat]
      show out ++ (if memcmp p x = .eq then dedupeFrom (some p) rest
        else x :: dedupeFrom (some x) rest) = out ++ [x] ++ dedupeFrom (some x) rest
      rw [if_neg hpx, List.append_assoc]
      rfl

/-- The combine merge loop, run on two fully compacted accumulators with
exactly sized storage (`nbytes = nall * item_size`, the shape of every
combine operand in the parallel protocol — see C10), computes exactly the
`prev`-deduplicated two-pointer merge of the two record sequences and never
reaches the `elog(ERROR, "unexpected")` branch. -/
theorem combineGo_spec (e1 e2 : ESet)
    (h1len : e1.data.length = e1.nall) (h1cap : e1.nbytes = e1.nall * e1.item_size)
    (h1pos : 0 < e1.item_size)
    (h2len : e2.data.length = e2.nall) (h2cap : e2.nbytes = e2.nall * e2.item_size)
    (h2pos : 0 < e2.item_size) :
    ∀ (fuel k1 k2 : Nat) (out : List Record),
      k1 ≤ e1.nall → k2 ≤ e2.nall → fuel = (e1.nall - k1) + (e2.nall - k2) →
      combineGo e1 e2 fuel k1 k2 out =
        some (out ++ dedupeFrom out.getLast? (mergeLe (e1.data.drop k1) (e2.data.drop k2))) := by
  intro fuel
  induction fuel with
  | zero =>
    intro k1 k2 out hk1 hk2 hfuel
    have hd1 : e1.data.drop k1 = [] := List.drop_eq_nil_of_le (by omega)
    have hd2 : e2.data.drop k2 = [] := List.drop_eq_nil_of_le (by omega)
    rw [hd1, hd2]
    show some out = some (out ++ dedupeFrom out.getLast? (mergeLe [] []))
    simp [mergeLe, dedupeFrom]
  | succ fuel ih =>
    intro k1 k2 out hk1 hk2 hfuel
    have hb1 := slotInBounds_iff e1 h1cap h1pos k1
    have hb2 := slotInBounds_iff e2 h2cap h2pos k2
    by_cases hc1 : k1 < e1.nall <;> by_cases hc2 : k2 < e2.nall
    · have hk1l : k1 < e1.data.length := by omega
      have hk2l : k2 < e2.data.length := by omega
      have hd1 : e1.data.drop k1 = e1.data[k1] :: e1.data.drop (k1 + 1) :=
        List.drop_eq_getElem_cons hk1l
      have hd2 : e2.data.drop k2 = e2.data[k2] :: e2.data.drop (k2 + 1) :=
        List.drop_eq_getElem_cons hk2l
      have hs1 : slotAt e1 k1 = e1.data[k1] := slotAt_lt e1 k1 hk1l
      have hs2 : slotAt e2 k2 = e2.data[k2] := slotAt_lt e2 k2 hk2l
      show combineGo e1 e2 (fuel + 1) k1 k2 out = _
      rw [combineGo]
      rw [if_pos ⟨hb1.mpr hc1, hb2.mpr hc2⟩]
      by_cases hcmp : memcmp (slotAt e1 k1) (slotAt e2 k2) ≠ .gt
      · rw [if_pos hcmp]
        show combineGo e1 e2 fuel (k1 + 1) k2 (emitDistinct out (slotAt e1 k1)) = _
        rw [ih (k1 + 1) k2 _ (by omega) (by omega) (by omega), hd1, hd2, mergeLe]
        rw [hs1, hs2] at hcmp
        rw [if_pos hcmp, ← hd2, hs1, ← emitDistinct_dedupe]
      · rw [if_neg hcmp]
        show combineGo e1 e2 fuel k1 (k2 + 1) (emitDistinct out (slotAt e2 k2)) = _
        rw [ih k1 (k2 + 1) _ (by omega) (by omega) (by omega), hd1, hd2, mergeLe]
        rw [hs1, hs2] at hcmp
        rw [if_neg hcmp, ← hd1, hs2, ← emitDistinct_dedupe]
    · have hk1l : k1 < e1.data.length := by omega
      have hd1 : e1.data.drop k1 = e1.data[k1] :: e1.data.drop (k1 + 1) :=
        List.drop_eq_getElem_cons hk1l
      have hd2 : e2.data.drop k2 = [] := List.drop_eq_nil_of_le (by omega)
      have hs1 : slotAt e1 k1 = e1.data[k1] := slotAt_lt e1 k1 hk1l
      show combineGo e1 e2 (fuel + 1) k1 k2 out = _
      rw [combineGo]
      rw [if_neg (by rw [hb1, hb2]; omega), if_pos (hb1.mpr hc1)]
      show combineGo e1 e2 fuel (k1 + 1) k2 (emitDistinct out (slotAt e1 k1)) = _
      rw [ih (k1 + 1) k2 _ (by omega) (by omega) (by omega), hd1, hd2,
        mergeLe_nil_right, mergeLe_nil_right, hs1, ← emitDistinct_dedupe]
    · have hd1 : e1.data.drop k1 = [] := List.drop_eq_nil_of_le (by omega)
      have hk2l : k2 < e2.data.length := by omega
      have hd2 : e2.data.drop k2 = e2.data[k2] :: e2.data.drop (k2 + 1) :=
        List.drop_eq_getElem_cons hk2l
      have hs2 : slotAt e2 k2 = e2.data[k2] := slotAt_lt e2 k2 hk2l
      show combineGo e1 e2 (fuel + 1) k1 k2 out = _
      rw [combineGo]
      rw [if_neg (by rw [hb1, hb2]; omega), if_neg (by rw [hb1]; omega),
        if_pos (hb2.mpr hc2)]
      show combineGo e1 e2 fuel k1 (k2 + 1) (emitDistinct out (slotAt e2 k2)) = _
      rw [ih k1 (k2 + 1) _ (by omega) (by omega) (by omega), hd1, hd2]
      show _ = some (out ++ dedupeFrom out.getLast?
        (mergeLe [] (e2.data[k2] :: e2.data.drop (k2 + 1))))
      rw [mergeLe, mergeLe, hs2, ← emitDistinct_dedupe]
    · omega

/-- Semantic summary of a merging `count_distinct_combine` on two fully
compacted, exactly sized operands of a common width: it succeeds and
returns the strictly sorted duplicate-free union. -/
theorem count_distinct_combine_spec (is : Nat) (e1 e2 : ESet)
    (h1 : Compacted is e1) (h2 : Compacted is e2) (hpos : 0 < is) :
    ∃ E, count_distinct_combine (some e1) (some e2) = some (some E) ∧
      Compacted is E ∧
      E.data = dedupeAdj (mergeLe e1.data e2.data) ∧
      (∀ r, r ∈ E.data ↔ r ∈ e1.data ∨ r ∈ e2.data) ∧
      E.typalign = e1.typalign ∧ E.aggctx = e1.aggctx := by
  obtain ⟨h1is, h1sn, h1len, h1cap, h1rl, h1strict⟩ := h1
  obtain ⟨h2is, h2sn, h2len, h2cap, h2rl, h2strict⟩ := h2
  have h1pos : 0 < e1.item_size := h1is ▸ hpos
  have h2pos : 0 < e2.item_size := h2is ▸ hpos
  have hnoop1 : compact_set e1 false = e1 :=
    compact_set_noop is e1 ⟨h1is, h1sn, h1len, h1cap, h1rl, h1strict⟩
  have hnoop2 : compact_set e2 false = e2 :=
    compact_set_noop is e2 ⟨h2is, h2sn, h2len, h2cap, h2rl, h2strict⟩
  have hgo := combineGo_spec e1 e2 h1len (h1is ▸ h1cap) h1pos h2len (h2is ▸ h2cap) h2pos
    (e1.nall + e2.nall) 0 0 [] (Nat.zero_le _) (Nat.zero_le _) (by omega)
  simp only [List.drop_zero, List.nil_append] at hgo
  have hout : dedupeFrom (List.getLast? []) (mergeLe e1.data e2.data) =
      dedupeAdj (mergeLe e1.data e2.data) := rfl
  rw [hout] at hgo
  set L := dedupeAdj (mergeLe e1.data e2.data) with hL
  have hmem : ∀ r, r ∈ L ↔ r ∈ e1.data ∨ r ∈ e2.data := by
    intro r
    rw [hL, mem_dedupeAdj, mem_mergeLe]
  have hstrict : List.Pairwise recLt L := by
    rw [hL]
    exact dedupeAdj_strict _
      (mergeLe_sorted e1.data e2.data (h1strict.imp recLe_of_lt) (h2strict.imp recLe_of_lt))
  have hdiv : L.length * e1.item_size / e1.item_size = L.length :=
    Nat.mul_div_cancel _ h1pos
  refine ⟨⟨e1.item_size, L.length * e1.item_size / e1.item_size,
      L.length * e1.item_size / e1.item_size, L.length * e1.item_size,
      e1.typalign, e1.aggctx, L⟩, ?_, ?_, rfl, hmem, rfl, rfl⟩
  · show (if 0 < e1.item_size ∧ e1.item_size = e2.item_size then
        (match combineGo (compact_set e1 false) (compact_set e2 false)
            ((compact_set e1 false).nall + (compact_set e2 false).nall) 0 0 [] with
          | none => none
          | some out => some (some (⟨(compact_set e1 false).item_size,
              out.length * (compact_set e1 false).item_size / (compact_set e1 false).item_size,
              out.length * (compact_set e1 false).item_size / (compact_set e1 false).item_size,
              out.length * (compact_set e1 false).item_size,
              (compact_set e1 false).typalign, (compact_set e1 false).aggctx, out⟩ : ESet)))
      else none) = _
    rw [if_pos ⟨h1pos, h1is.trans h2is.symm⟩, hnoop1, hnoop2, hgo]
  · refine ⟨h1is, rfl, ?_, ?_, ?_, hstrict⟩
    · show L.length = L.length * e1.item_size / e1.item_size
      rw [hdiv]
    · show L.length * e1.item_size = L.length * e1.item_size / e1.item_size * is
      rw [hdiv, h1is]
    · show ∀ r ∈ L, r.length = is
      intro r hr
      rcases (hmem r).mp hr with h | h
      · exact h1rl r h
      · exact h2rl r h

/-! ### Claim C9: combine rejects mismatched widths -/

/-- **C9.**  When both operands are present and their `item_size`s differ,
`count_distinct_combine` fails fatally (the consistency `Assert` on the
item sizes, active in a checking build, modelled as the guard returning
`none`) instead of producing a merged accumulator. -/
theorem combine_size_mismatch (e1 e2 : ESet) (h : e1.item_size ≠ e2.item_size) :
    count_distinct_combine (some e1) (some e2) = none := by
  show (if 0 < e1.item_size ∧ e1.item_size = e2.item_size then _ else none) = none
  rw [if_neg]
  rintro ⟨-, heq⟩
  exact h heq

/-- Witness for C9: widths 4 and 8. -/
theorem combine_size_mismatch_witness :
    count_distinct_combine (some ⟨4, 1, 1, 4, 0, 0, [[1,0,0,0]]⟩)
      (some ⟨8, 1, 1, 8, 0, 0, [[1,0,0,0,0,0,0,0]]⟩) = none :=
  combine_size_mismatch _ _ (by decide)

/-! ### Claim C10: capacity exactness of deserialize / combine outputs -/

/-- **C10.**  Every accumulator returned by `count_distinct_deserial`, and
every accumulator produced by a merging `count_distinct_combine`, has
`nbytes = nall * item_size` — its capacity exactly equals its live record
bytes.  The third conjunct is why combine relies on this: the merge loop
bounds its scans by `data + nbytes` (`slotInBounds`), and under the
invariant that bound coincides with the live-record count `nall`, so no
stale bytes past the last record are ever treated as records. -/
theorem capacity_exact_invariant :
    (∀ (s : SerialBytes) (e : ESet), count_distinct_deserial s = some e →
        e.nbytes = e.nall * e.item_size) ∧
    (∀ (e1 e2 E : ESet), count_distinct_combine (some e1) (some e2) = some (some E) →
        E.nbytes = E.nall * E.item_size) ∧
    (∀ e : ESet, e.nbytes = e.nall * e.item_size → 0 < e.item_size →
        ∀ k, slotInBounds e k ↔ k < e.nall) := by
  refine ⟨?_, ?_, ?_⟩
  · intro s e h
    unfold count_distinct_deserial at h
    by_cases h1 : s.len = 0
    · rw [if_pos h1] at h; exact absurd h (by simp)
    · rw [if_neg h1] at h
      by_cases h2 : s.len = headerSize
      · rw [if_pos h2] at h; exact absurd h (by simp)
      · rw [if_neg h2] at h
        by_cases h3 : ¬(0 < s.hdr_nall ∧ s.hdr_nall = s.hdr_nsorted)
        · rw [if_pos h3] at h; exact absurd h (by simp)
        · rw [if_neg h3] at h
          by_cases h4 : s.len ≠ headerSize + s.hdr_nall * s.hdr_item_size
          · rw [if_pos h4] at h; exact absurd h (by simp)
          · rw [if_neg h4] at h
            have h' := Option.some.inj h
            rw [← h']
  · intro e1 e2 E h
    have h' : (if 0 < e1.item_size ∧ e1.item_size = e2.item_size then
        (match combineGo (compact_set e1 false) (compact_set e2 false)
            ((compact_set e1 false).nall + (compact_set e2 false).nall) 0 0 [] with
          | none => none
          | some out => some (some (⟨(compact_set e1 false).item_size,
              out.length * (compact_set e1 false).item_size / (compact_set e1 false).item_size,
              out.length * (compact_set e1 false).item_size / (compact_set e1 false).item_size,
              out.length * (compact_set e1 false).item_size,
              (compact_set e1 false).typalign, (compact_set e1 false).aggctx, out⟩ : ESet)))
      else none) = some (some E) := h
    by_cases hg : 0 < e1.item_size ∧ e1.item_size = e2.item_size
    · rw [if_pos hg] at h'
      cases hgo : combineGo (compact_set e1 false) (compact_set e2 false)
          ((compact_set e1 false).nall + (compact_set e2 false).nall) 0 0 [] with
      | none => rw [hgo] at h'; exact absurd h' (by simp)
      | some out =>
        rw [hgo] at h'
        have hE := Option.some.inj (Option.some.inj h')
        rw [← hE]
        show out.length * (compact_set e1 false).item_size =
          out.length * (compact_set e1 false).item_size / (compact_set e1 false).item_size *
            (compact_set e1 false).item_size
        rw [Nat.div_mul_cancel (dvd_mul_left _ _)]
    · rw [if_neg hg] at h'
      exact absurd h' (by simp)
  · exact fun e hcap hpos k => slotInBounds_iff e hcap hpos k

/-- Witness for C10: a deserialized three-record stream (header-declared
capacity 99 is discarded and recomputed as 12), a concrete merging
combine, and the bound equivalence at slot 1. -/
theorem capacity_exact_invariant_witness :
    (⟨4, 3, 3, 12, 0, 0, [[10,0,0,0], [20,0,0,0], [30,0,0,0]]⟩ : ESet).nbytes =
      (⟨4, 3, 3, 12, 0, 0, [[10,0,0,0], [20,0,0,0], [30,0,0,0]]⟩ : ESet).nall *
      (⟨4, 3, 3, 12, 0, 0, [[10,0,0,0], [20,0,0,0], [30,0,0,0]]⟩ : ESet).item_size ∧
    (⟨1, 2, 2, 2, 0, 0, [[3], [5]]⟩ : ESet).nbytes =
      (⟨1, 2, 2, 2, 0, 0, [[3], [5]]⟩ : ESet).nall *
      (⟨1, 2, 2, 2, 0, 0, [[3], [5]]⟩ : ESet).item_size ∧
    (slotInBounds ⟨4, 3, 3, 12, 0, 0, [[10,0,0,0], [20,0,0,0], [30,0,0,0]]⟩ 1 ↔
      1 < (⟨4, 3, 3, 12, 0, 0, [[10,0,0,0], [20,0,0,0], [30,0,0,0]]⟩ : ESet).nall) :=
  ⟨capacity_exact_invariant.1
      ⟨44, 4, 3, 3, 99, 0, 0, [10,0,0,0, 20,0,0,0, 30,0,0,0]⟩
      ⟨4, 3, 3, 12, 0, 0, [[10,0,0,0], [20,0,0,0], [30,0,0,0]]⟩ (by decide),
   capacity_exact_invariant.2.1 ⟨1, 1, 1, 1, 0, 0, [[3]]⟩ ⟨1, 1, 1, 1, 0, 0, [[5]]⟩
      ⟨1, 2, 2, 2, 0, 0, [[3], [5]]⟩ (by decide),
   capacity_exact_invariant.2.2 ⟨4, 3, 3, 12, 0, 0, [[10,0,0,0], [20,0,0,0], [30,0,0,0]]⟩
      (by decide) (by decide) 1⟩

/-! ### Claim C7: the distinctness invariant -/

/-- **C7.**  After every `compact_set` call on a well-formed accumulator the
sorted zone is strictly increasing under byte-wise order — adjacent records
satisfy `r[i] < r[i+1]`, so no two records in it are equal — and the sorted
zone is the whole record sequence (`nsorted = nall`); this covers the
states produced by the compacting operations (finalization and
serialization compact with `need_space = false`, and the last conjunct
covers the accumulator produced by a merging combine on fully compacted,
exactly sized operands, the shape of the parallel protocol). -/
theorem sorted_zone_strictly_increasing (is : Nat) (e : ESet) (b : Bool) (h : WF is e) :
    List.Chain' recLt ((compact_set e b).data.take (compact_set e b).nsorted) ∧
    (compact_set e b).nsorted = (compact_set e b).nall ∧
    List.Chain' recLt (compact_set e b).data ∧
    (∀ e1 e2 E, Compacted is e1 → Compacted is e2 → 0 < is →
      count_distinct_combine (some e1) (some e2) = some (some E) →
      List.Chain' recLt E.data) := by
  obtain ⟨_, c_sn, c_len, c_strict, _, _, _⟩ := compact_set_spec is e b h
  have htake : (compact_set e b).data.take (compact_set e b).nsorted =
      (compact_set e b).data :=
    List.take_of_length_le (by rw [c_len, c_sn])
  refine ⟨by rw [htake]; exact c_strict.chain', c_sn, c_strict.chain', ?_⟩
  intro e1 e2 E h1 h2 hpos hcomb
  obtain ⟨E', hE', hc', _, _, _, _⟩ := count_distinct_combine_spec is e1 e2 h1 h2 hpos
  rw [hE'] at hcomb
  have hEE : E' = E := Option.some.inj (Option.some.inj hcomb)
  rw [← hEE]
  exact hc'.2.2.2.2.2.chain'

/-- Witness for C7 at a concrete unsorted two-record state. -/
theorem sorted_zone_strictly_increasing_witness :
    List.Chain' recLt
      ((compact_set ⟨4, 0, 2, 32, 0, 0, [[2,0,0,0], [1,0,0,0]]⟩ false).data.take
        (compact_set ⟨4, 0, 2, 32, 0, 0, [[2,0,0,0], [1,0,0,0]]⟩ false).nsorted) ∧
    (compact_set ⟨4, 0, 2, 32, 0, 0, [[2,0,0,0], [1,0,0,0]]⟩ false).nsorted =
      (compact_set ⟨4, 0, 2, 32, 0, 0, [[2,0,0,0], [1,0,0,0]]⟩ false).nall ∧
    List.Chain' recLt (compact_set ⟨4, 0, 2, 32, 0, 0, [[2,0,0,0], [1,0,0,0]]⟩ false).data ∧
    (∀ e1 e2 E, Compacted 4 e1 → Compacted 4 e2 → 0 < 4 →
      count_distinct_combine (some e1) (some e2) = some (some E) →
      List.Chain' recLt E.data) :=
  sorted_zone_strictly_increasing 4 ⟨4, 0, 2, 32, 0, 0, [[2,0,0,0], [1,0,0,0]]⟩ false
    (by decide)

/-! ### Claim C2: combine as set union -/

/-- **C2 (counterexample).**  Combining two accumulators *built directly by
appends* is not a correct union: such operands keep their construction-time
capacity (`nbytes = 32` here) while holding only `nall * item_size = 12`
live bytes, and the merge loop of `count_distinct_combine` bounds its scan
by `data + nbytes`, so it walks into the uninitialized slack (modelled as
zero bytes; in C the outcome depends on stale memory, and the loop's
closing `Assert(ptr1 == data + nall * item_size)` fails in a checking
build).  For the spec's own scenario `A = [1,2,3]`, `B = [3,4,5]` the
merged accumulator finalizes to 4, not the distinct count 5 of the
concatenated inputs. -/
theorem combine_after_build_counterexample :
    count_distinct_combine
        (some (buildESet 4 [[1,0,0,0], [2,0,0,0], [3,0,0,0]]))
        (some (buildESet 4 [[3,0,0,0], [4,0,0,0], [5,0,0,0]])) =
      some (some ⟨4, 4, 4, 16, 0, 0, [[1,0,0,0], [2,0,0,0], [3,0,0,0], [0,0,0,0]]⟩) ∧
    count_distinct (some (⟨4, 4, 4, 16, 0, 0,
        [[1,0,0,0], [2,0,0,0], [3,0,0,0], [0,0,0,0]]⟩ : ESet)) = some 4 ∧
    count_distinct (some (buildESet 4
        [[1,0,0,0], [2,0,0,0], [3,0,0,0], [3,0,0,0], [4,0,0,0], [5,0,0,0]])) = some 5 := by
  decide

/-- **C2 (amended).**  For combine operands as they occur in the parallel
aggregation protocol — accumulators that went through
serialize/deserialize, hence fully compacted with exactly sized storage
(`nbytes = nall * item_size`, C10) — `count_distinct_combine` succeeds and
finalizes to the same distinct count and the same sorted record sequence
as one accumulator built from the concatenation of the two input
multisets, and the result satisfies
`nsorted = nall = (length of the duplicate-free merge)`. -/
theorem combine_union_correct (is : Nat) (va vb : List Record)
    (hpos : 0 < is)
    (hla : ∀ r ∈ va, r.length = is) (hlb : ∀ r ∈ vb, r.length = is)
    (hnea : va ≠ []) (hneb : vb ≠ []) :
    ∃ A B E,
      count_distinct_deserial (count_distinct_serial (buildESet is va)) = some A ∧
      count_distinct_deserial (count_distinct_serial (buildESet is vb)) = some B ∧
      count_distinct_combine (some A) (some B) = some (some E) ∧
      count_distinct (some E) = count_distinct (some (buildESet is (va ++ vb))) ∧
      finalizeSeq E = finalizeSeq (buildESet is (va ++ vb)) ∧
      E.nsorted = E.nall ∧ E.nall = E.data.length := by
  obtain ⟨ba_wf, ba_mem, _, _⟩ := buildESet_spec is va hla
  have hane : (buildESet is va).data ≠ [] := by
    obtain ⟨x, hx⟩ := List.exists_mem_of_ne_nil va hnea
    exact List.ne_nil_of_mem ((ba_mem x).mpr hx)
  obtain ⟨A, hA, hAc, hAdata, _, _, _⟩ := serial_deserial_spec is _ ba_wf hpos hane
  obtain ⟨_, _, _, _, ca_mem, _, _⟩ := compact_set_spec is (buildESet is va) false ba_wf
  have hAmem : ∀ r, r ∈ A.data ↔ r ∈ va := by
    intro r
    rw [hAdata, ca_mem r, ba_mem r]
  obtain ⟨bb_wf, bb_mem, _, _⟩ := buildESet_spec is vb hlb
  have hbne : (buildESet is vb).data ≠ [] := by
    obtain ⟨x, hx⟩ := List.exists_mem_of_ne_nil vb hneb
    exact List.ne_nil_of_mem ((bb_mem x).mpr hx)
  obtain ⟨B, hB, hBc, hBdata, _, _, _⟩ := serial_deserial_spec is _ bb_wf hpos hbne
  obtain ⟨_, _, _, _, cb_mem, _, _⟩ := compact_set_spec is (buildESet is vb) false bb_wf
  have hBmem : ∀ r, r ∈ B.data ↔ r ∈ vb := by
    intro r
    rw [hBdata, cb_mem r, bb_mem r]
  obtain ⟨E, hE, hEc, _, hEmem, _, _⟩ := count_distinct_combine_spec is A B hAc hBc hpos
  have hlab : ∀ r ∈ va ++ vb, r.length = is := by
    intro r hr
    rcases List.mem_append.mp hr with h | h
    · exact hla r h
    · exact hlb r h
  obtain ⟨bab_wf, bab_mem, _, _⟩ := buildESet_spec is (va ++ vb) hlab
  obtain ⟨_, _, cab_len, cab_strict, cab_mem, _, _⟩ :=
    compact_set_spec is (buildESet is (va ++ vb)) false bab_wf
  have hdata_eq : E.data = (compact_set (buildESet is (va ++ vb)) false).data := by
    apply strict_eq_of_mem_iff hEc.2.2.2.2.2 cab_strict
    intro x
    rw [hEmem x, hAmem x, hBmem x, cab_mem x, bab_mem x, List.mem_append]
  have hnoopE := compact_set_noop is E hEc
  refine ⟨A, B, E, hA, hB, hE, ?_, ?_, hEc.2.1, hEc.2.2.1.symm⟩
  · show some (compact_set E false).nall =
      some (compact_set (buildESet is (va ++ vb)) false).nall
    rw [hnoopE, show E.nall = E.data.length from hEc.2.2.1.symm, hdata_eq, cab_len]
  · show (compact_set E false).data = (compact_set (buildESet is (va ++ vb)) false).data
    rw [hnoopE, hdata_eq]

/-- Witness for C2 (amended) at the spec scenario `A = [1,2,3]`,
`B = [3,4,5]`, width 4. -/
theorem combine_union_correct_witness :
    ∃ A B E,
      count_distinct_deserial (count_distinct_serial
        (buildESet 4 [[1,0,0,0], [2,0,0,0], [3,0,0,0]])) = some A ∧
      count_distinct_deserial (count_distinct_serial
        (buildESet 4 [[3,0,0,0], [4,0,0,0], [5,0,0,0]])) = some B ∧
      count_distinct_combine (some A) (some B) = some (some E) ∧
      count_distinct (some E) = count_distinct (some (buildESet 4
        ([[1,0,0,0], [2,0,0,0], [3,0,0,0]] ++ [[3,0,0,0], [4,0,0,0], [5,0,0,0]]))) ∧
      finalizeSeq E = finalizeSeq (buildESet 4
        ([[1,0,0,0], [2,0,0,0], [3,0,0,0]] ++ [[3,0,0,0], [4,0,0,0], [5,0,0,0]])) ∧
      E.nsorted = E.nall ∧ E.nall = E.data.length :=
  combine_union_correct 4 _ _ (by decide) (by decide) (by decide) (by decide) (by decide)

/-! ### Claim C6: associativity, commutativity, identity of combine -/

/-- **C6 (counterexample).**  On directly built accumulators (slack
capacity, cf. the C2 counterexample) the two nestings of combine are not
even equal to each other: with `A = [1]`, `B = [2]`, `C = [3]` (width 4)
the left-nested result finalizes to a three-record sequence containing a
stale zero record, the right-nested one to a two-record sequence — the
second operand of the inner right combine is never fully consumed. -/
theorem combine_grouping_counterexample :
    count_distinct_combine (some (buildESet 4 [[1,0,0,0]]))
        (some (buildESet 4 [[2,0,0,0]])) =
      some (some ⟨4, 2, 2, 8, 0, 0, [[1,0,0,0], [0,0,0,0]]⟩) ∧
    count_distinct_combine (some (⟨4, 2, 2, 8, 0, 0, [[1,0,0,0], [0,0,0,0]]⟩ : ESet))
        (some (buildESet 4 [[3,0,0,0]])) =
      some (some ⟨4, 3, 3, 12, 0, 0, [[1,0,0,0], [0,0,0,0], [3,0,0,0]]⟩) ∧
    count_distinct_combine (some (buildESet 4 [[2,0,0,0]]))
        (some (buildESet 4 [[3,0,0,0]])) =
      some (some ⟨4, 2, 2, 8, 0, 0, [[2,0,0,0], [0,0,0,0]]⟩) ∧
    count_distinct_combine (some (buildESet 4 [[1,0,0,0]]))
        (some (⟨4, 2, 2, 8, 0, 0, [[2,0,0,0], [0,0,0,0]]⟩ : ESet)) =
      some (some ⟨4, 2, 2, 8, 0, 0, [[1,0,0,0], [0,0,0,0]]⟩) ∧
    finalizeSeq ⟨4, 3, 3, 12, 0, 0, [[1,0,0,0], [0,0,0,0], [3,0,0,0]]⟩ ≠
      finalizeSeq ⟨4, 2, 2, 8, 0, 0, [[1,0,0,0], [0,0,0,0]]⟩ := by
  decide

set_option maxHeartbeats 1000000 in
/-- **C6 (amended).**  With operands as produced by the parallel protocol
(serialize/deserialize round-trips of built accumulators, i.e. fully
compacted with `nbytes = nall * item_size`), the nested combines of any
two partition/order variants of one input multiset finalize to the
identical sorted record sequence; and an absent operand is a two-sided
identity, the present operand's state being returned unchanged. -/
theorem combine_assoc_comm_identity (is : Nat) (va vb vc va' vb' vc' : List Record)
    (hpos : 0 < is)
    (hla : ∀ r ∈ va, r.length = is) (hlb : ∀ r ∈ vb, r.length = is)
    (hlc : ∀ r ∈ vc, r.length = is)
    (hla' : ∀ r ∈ va', r.length = is) (hlb' : ∀ r ∈ vb', r.length = is)
    (hlc' : ∀ r ∈ vc', r.length = is)
    (hnea : va ≠ []) (hneb : vb ≠ []) (hnec : vc ≠ [])
    (hnea' : va' ≠ []) (hneb' : vb' ≠ []) (hnec' : vc' ≠ [])
    (hsame : ∀ r : Record, r ∈ va' ++ vb' ++ vc' ↔ r ∈ va ++ vb ++ vc) :
    (∀ X : Option ESet, count_distinct_combine X none = some X ∧
        count_distinct_combine none X = some X) ∧
    ∃ A B C A' B' C' AB E1 BC E2,
      count_distinct_deserial (count_distinct_serial (buildESet is va)) = some A ∧
      count_distinct_deserial (count_distinct_serial (buildESet is vb)) = some B ∧
      count_distinct_deserial (count_distinct_serial (buildESet is vc)) = some C ∧
      count_distinct_deserial (count_distinct_serial (buildESet is va')) = some A' ∧
      count_distinct_deserial (count_distinct_serial (buildESet is vb')) = some B' ∧
      count_distinct_deserial (count_distinct_serial (buildESet is vc')) = some C' ∧
      count_distinct_combine (some A) (some B) = some (some AB) ∧
      count_distinct_combine (some AB) (some C) = some (some E1) ∧
      count_distinct_combine (some B') (some C') = some (some BC) ∧
      count_distinct_combine (some A') (some BC) = some (some E2) ∧
      finalizeSeq E1 = finalizeSeq E2 := by
  have proto : ∀ (vs : List Record), (∀ r ∈ vs, r.length = is) → vs ≠ [] →
      ∃ X, count_distinct_deserial (count_distinct_serial (buildESet is vs)) = some X ∧
        Compacted is X ∧ ∀ r, r ∈ X.data ↔ r ∈ vs := by
    intro vs hl hne
    obtain ⟨b_wf, b_mem, _, _⟩ := buildESet_spec is vs hl
    have hdne : (buildESet is vs).data ≠ [] := by
      obtain ⟨x, hx⟩ := List.exists_mem_of_ne_nil vs hne
      exact List.ne_nil_of_mem ((b_mem x).mpr hx)
    obtain ⟨X, hX, hXc, hXdata, _, _, _⟩ := serial_deserial_spec is _ b_wf hpos hdne
    obtain ⟨_, _, _, _, c_mem, _, _⟩ := compact_set_spec is (buildESet is vs) false b_wf
    refine ⟨X, hX, hXc, ?_⟩
    intro r
    rw [hXdata, c_mem r, b_mem r]
  obtain ⟨A, hA, hAc, hAmem⟩ := proto va hla hnea
  obtain ⟨B, hB, hBc, hBmem⟩ := proto vb hlb hneb
  obtain ⟨C, hC, hCc, hCmem⟩ := proto vc hlc hnec
  obtain ⟨A', hA', hAc', hAmem'⟩ := proto va' hla' hnea'
  obtain ⟨B', hB', hBc', hBmem'⟩ := proto vb' hlb' hneb'
  obtain ⟨C', hC', hCc', hCmem'⟩ := proto vc' hlc' hnec'
  obtain ⟨AB, hAB, hABc, _, hABmem, _, _⟩ := count_distinct_combine_spec is A B hAc hBc hpos
  obtain ⟨E1, hE1, hE1c, _, hE1mem, _, _⟩ := count_distinct_combine_spec is AB C hABc hCc hpos
  obtain ⟨BC, hBC, hBCc, _, hBCmem, _, _⟩ := count_distinct_combine_spec is B' C' hBc' hCc' hpos
  obtain ⟨E2, hE2, hE2c, _, hE2mem, _, _⟩ := count_distinct_combine_spec is A' BC hAc' hBCc hpos
  refine ⟨fun X => by cases X <;> exact ⟨rfl, rfl⟩,
    A, B, C, A', B', C', AB, E1, BC, E2, hA, hB, hC, hA', hB', hC',
    hAB, hE1, hBC, hE2, ?_⟩
  have hdata : E1.data = E2.data := by
    apply strict_eq_of_mem_iff hE1c.2.2.2.2.2 hE2c.2.2.2.2.2
    intro x
    rw [hE1mem x, hABmem x, hAmem x, hBmem x, hCmem x,
      hE2mem x, hAmem' x, hBCmem x, hBmem' x, hCmem' x]
    have h1 := hsame x
    simp only [List.mem_append] at h1
    exact h1.symm.trans or_assoc
  show (compact_set E1 false).data = (compact_set E2 false).data
  rw [compact_set_noop is E1 hE1c, compact_set_noop is E2 hE2c, hdata]

/-- Witness for C6 (amended): the partition `[1] / [2] / [3]` against its
reversal `[3] / [2] / [1]`, width 4. -/
theorem combine_assoc_comm_identity_witness :
    (∀ X : Option ESet, count_distinct_combine X none = some X ∧
        count_distinct_combine none X = some X) ∧
    ∃ A B C A' B' C' AB E1 BC E2,
      count_distinct_deserial (count_distinct_serial (buildESet 4 [[1,0,0,0]])) = some A ∧
      count_distinct_deserial (count_distinct_serial (buildESet 4 [[2,0,0,0]])) = some B ∧
      count_distinct_deserial (count_distinct_serial (buildESet 4 [[3,0,0,0]])) = some C ∧
      count_distinct_deserial (count_distinct_serial (buildESet 4 [[3,0,0,0]])) = some A' ∧
      count_distinct_deserial (count_distinct_serial (buildESet 4 [[2,0,0,0]])) = some B' ∧
      count_distinct_deserial (count_distinct_serial (buildESet 4 [[1,0,0,0]])) = some C' ∧
      count_distinct_combine (some A) (some B) = some (some AB) ∧
      count_distinct_combine (some AB) (some C) = some (some E1) ∧
      count_distinct_combine (some B') (some C') = some (some BC) ∧
      count_distinct_combine (some A') (some BC) = some (some E2) ∧
      finalizeSeq E1 = finalizeSeq E2 :=
  combine_assoc_comm_identity 4 [[1,0,0,0]] [[2,0,0,0]] [[3,0,0,0]]
    [[3,0,0,0]] [[2,0,0,0]] [[1,0,0,0]]
    (by decide) (by decide) (by decide) (by decide) (by decide) (by decide) (by decide)
    (by decide) (by decide) (by decide) (by decide) (by decide) (by decide)
    (by intro r; simp only [List.mem_append, List.mem_singleton]; tauto)

end CountDistinct
